import Mathlib

/-!
Verification of the row/column materialization utilities of the
`reactTable` repository (source file `src/utils.js`).

The JavaScript source is shallowly embedded: JS runtime values become the
inductive type `JSVal`, fallible JS operations (property reads on
`undefined`/`null`, method calls on absent objects) return `Except`, object
identity and in-place mutation are modelled with an explicit arena or heap
of records keyed by numeric addresses, and unbounded `while`/re-entrant
recursion is bounded by explicit fuel.  Each definition follows the
corresponding source function line by line; deviations forced by the
embedding are recorded in the doc comments.
-/

namespace ReactTable

/-- JavaScript runtime values, as far as the utilities in `src/utils.js`
inspect them: `undefined`, `null`, booleans, numbers (integral; the
utilities never do float arithmetic), strings, plain objects (ordered field
lists, first binding wins, keys unique in practice) and arrays. -/
inductive JSVal where
  | undef
  | null
  | bool (b : Bool)
  | num (n : Int)
  | str (s : String)
  | obj (fields : List (String × JSVal))
  | arr (elems : List JSVal)

/-- The JavaScript test `typeof v === "undefined"`: a tag check. -/
def isUndefined : JSVal → Bool
  | .undef => true
  | _ => false

/-- JavaScript truthiness of a `JSVal`. -/
def truthy : JSVal → Bool
  | .undef => false
  | .null => false
  | .bool b => b
  | .num n => n != 0
  | .str s => s != ""
  | .obj _ => true
  | .arr _ => true

/-- Parse a string of decimal digits as a natural number (JS canonical
array-index parsing is completed by the `toString n == k` check at the use
sites, which rejects leading zeros and signs). -/
def digitsToNat : List Char → Option Nat
  | [] => none
  | cs => cs.foldl (fun acc c => match acc with
      | none => none
      | some n => if c.isDigit then some (n * 10 + (c.toNat - 48)) else none) (some 0)

def strToNat (s : String) : Option Nat :=
  digitsToNat s.data

/-- One JavaScript property read `cursor[key]`.  Reading a property of
`undefined` or `null` throws a `TypeError` (`.error`); a missing object
field yields `undefined`; arrays answer canonical numeric indices and
`length`; strings answer indices and `length`; other primitives yield
`undefined`. -/
def jsGet : JSVal → String → Except String JSVal
  | .undef, _ => .error "TypeError"
  | .null, _ => .error "TypeError"
  | .obj fields, k => .ok (((fields.find? fun p => p.1 == k).map Prod.snd).getD .undef)
  | .arr elems, k =>
      match strToNat k with
      | some n => if toString n == k then .ok (elems.getD n .undef) else .ok .undef
      | none => if k == "length" then .ok (.num elems.length) else .ok .undef
  | .str s, k =>
      match strToNat k with
      | some n =>
          if toString n == k then
            .ok (match s.data.get? n with | some c => .str (String.mk [c]) | none => .undef)
          else .ok .undef
      | none => if k == "length" then .ok (.num s.length) else .ok .undef
  | .bool _, _ => .ok .undef
  | .num _, _ => .ok (.undef)

/-- A path argument of `getBy`: a string with dot and bracket syntax, a
number, a (possibly nested) array of keys, or a function.  `makePathArray`
only ever applies JavaScript `String()` to a function, which yields its
source text, so a function path is represented by that text. -/
inductive PathElem where
  | str (s : String)
  | num (n : Int)
  | fnSrc (src : String)
  | nest (parts : List PathElem)

/-- JavaScript falsiness of a path argument (the `if (!path)` guard of
`getBy`): the empty string and the number 0 are falsy, arrays and
functions are truthy. -/
def pathFalsy : PathElem → Bool
  | .str s => s == ""
  | .num n => n == 0
  | .fnSrc _ => false
  | .nest _ => false

mutual

/-- `flattenDeep` of `src/utils.js`: flattens arbitrarily nested path
arrays into the ordered list of their non-array elements. -/
def flattenDeep : PathElem → List PathElem
  | .nest parts => flattenDeepList parts
  | .str s => [.str s]
  | .num n => [.num n]
  | .fnSrc f => [.fnSrc f]

/-- The `for` loop of `flattenDeep`, walking an array left to right. -/
def flattenDeepList : List PathElem → List PathElem
  | [] => []
  | p :: rest => flattenDeep p ++ flattenDeepList rest

end

/-- JavaScript `String(d)` on a flattened (non-array) path part. -/
def pathElemText : PathElem → String
  | .str s => s
  | .num n => toString n
  | .fnSrc src => src
  | .nest _ => ""

/-- JavaScript `String.prototype.replace` with the string pattern `"."`:
replaces only the FIRST occurrence of a period (the source comment says
"remove all periods in parts" but a string pattern is not a global
regex). -/
def replaceFirstDotChars : List Char → List Char
  | [] => []
  | c :: rest => if c = '.' then '_' :: rest else c :: replaceFirstDotChars rest

def replaceFirstDot (s : String) : String :=
  String.mk (replaceFirstDotChars s.data)

/-- The global regex replacements `reOpenBracket`/`reCloseBracket`: every
`[` becomes a period and every `]` is dropped (both patterns are single
characters, so a map and a filter). -/
def bracketsToDots (cs : List Char) : List Char :=
  (cs.map fun c => if c = '[' then '.' else c).filter fun c => c ≠ ']'

/-- JavaScript `String.prototype.split(".")` on the character list, e.g.
splitting the empty string yields `[""]`. -/
def splitOnDot (cs : List Char) : List String :=
  match cs with
  | [] => [""]
  | c :: rest =>
      match splitOnDot rest with
      | [] => [""]
      | s :: ss => if c = '.' then "" :: s :: ss else (String.mk [c] ++ s) :: ss

/-- `makePathArray` of `src/utils.js`: flatten the path, replace the first
period of each part with an underscore, join the parts with periods,
replace every `[` with a period, drop every `]`, and split on periods. -/
def makePathArray (p : PathElem) : List String :=
  splitOnDot (bracketsToDots
    (String.intercalate "." ((flattenDeep p).map fun d => replaceFirstDot (pathElemText d))).data)

/-- The `pathObj.reduce((cursor, pathPart) => cursor[pathPart], obj)` call
of `getBy`, with JS exceptions as `Except`. -/
def resolvePath (o : JSVal) (keys : List String) : Except String JSVal :=
  keys.foldlM jsGet o

/-- `getBy(obj, path, def)` of `src/utils.js`.  A falsy path returns the
object itself; otherwise the parsed key sequence is resolved inside the
source `try`/`catch` (a throw leaves `val` undefined), and `val` is
returned unless it is `undefined`, in which case the default is.  The
process-wide `pathObjCache` is a memoization of the deterministic
`makePathArray` keyed by the literal path, so it is observationally
transparent and not modelled. -/
def getBy (o : JSVal) (p : PathElem) (dflt : JSVal) : JSVal :=
  if pathFalsy p then o
  else
    let val : JSVal :=
      match resolvePath o (makePathArray p) with
      | .ok v => v
      | .error _ => .undef
    if isUndefined val then dflt else val

/-- Specification-side resolver ("the nested value reached by following the
parsed key sequence through the object"): plain recursion over the key
list, propagating a JS `TypeError`. -/
def followKeys : JSVal → List String → Except String JSVal
  | v, [] => .ok v
  | v, k :: rest =>
      match jsGet v k with
      | .ok v' => followKeys v' rest
      | .error e => .error e

/-- `shouldAutoRemoveFilter(autoRemove, value, column)` of `src/utils.js`:
a configured `autoRemove` predicate decides; otherwise the filter is
removed exactly when its value is `undefined`. -/
def shouldAutoRemoveFilter {Col : Type} (autoRemove : Option (JSVal → Col → Bool))
    (value : JSVal) (column : Col) : Bool :=
  match autoRemove with
  | some f => f value column
  | none => isUndefined value

/-- The `accessor` option of a column: a string path, the path closure
`row => getBy(row, accessorPath)` that `assignColumnAccessor` builds from
it, or an opaque user function (identified by a tag; the column
materializer only stores it). -/
inductive Accessor where
  | str (s : String)
  | pathFn (path : List String)
  | fn (tag : Nat)

/-- The `Header` option of a column: a string label or a render component
(opaque, identified by a tag). -/
inductive HeaderLabel where
  | str (s : String)
  | component (tag : Nat)

/-- A column configuration record, restricted to the fields that
`linkColumnStructure` and `assignColumnAccessor` read or write.  Nested
`columns` and `parent` are non-owning references into the heap below;
rendering fields are untouched by these functions and not modelled. -/
structure CCol where
  id : Option String
  accessor : Option Accessor
  Header : Option HeaderLabel
  columns : Option (List Nat)
  parent : Option Nat
  depth : Nat

/-- JavaScript truthiness of an optional string field (`!id`). -/
def optStrTruthy : Option String → Bool
  | some s => s != ""
  | none => false

/-- The local `id`/`accessor` computation of `assignColumnAccessor` (lines
38-48 of `src/utils.js`): a string accessor is compiled to the path
closure over `accessor.split(".")` and `id = id || accessor` falls
through on a falsy (empty) id; a still-falsy id then falls back to a
non-empty string `Header`. -/
def resolveColumnId (column : CCol) : Option String × Option Accessor :=
  let idAcc : Option String × Option Accessor :=
    match column.accessor with
    | some (.str s) =>
        (if optStrTruthy column.id then column.id else some s,
         some (.pathFn (splitOnDot s.data)))
    | other => (column.id, other)
  let id2 :=
    if !optStrTruthy idAcc.1 then
      match column.Header with
      | some (.str h) => if h != "" then some h else idAcc.1
      | _ => idAcc.1
    else idAcc.1
  (id2, idAcc.2)

/-- `assignColumnAccessor(column)` of `src/utils.js` (lines 36-66).  The
JS function mutates the record it is given and returns it; here the
updated record is returned, or the message of the thrown configuration
error.  With no id resolved by `resolveColumnId` the function throws,
choosing the message by whether the column has nested `columns`. -/
def assignColumnAccessor (column : CCol) : Except String CCol :=
  let r := resolveColumnId column
  if !optStrTruthy r.1 && column.columns.isSome then
    .error "A column ID (or unique \x22Header\x22 value) is required!"
  else if !optStrTruthy r.1 then
    .error "A column ID (or string accessor) is required!"
  else
    .ok { column with id := r.1, accessor := r.2 }

/-- A heap of column records: JS object identity made explicit.  `next` is
the next fresh address; allocation prepends, update rewrites in place. -/
structure Heap where
  next : Nat
  mem : List (Nat × CCol)

def defaultCCol : CCol :=
  { id := none, accessor := none, Header := none, columns := none, parent := none, depth := 0 }

def Heap.get (h : Heap) (a : Nat) : CCol :=
  ((h.mem.find? fun p => p.1 == a).map Prod.snd).getD defaultCCol

def Heap.set (h : Heap) (a : Nat) (c : CCol) : Heap :=
  { h with mem := h.mem.map fun p => if p.1 = a then (a, c) else p }

def Heap.alloc (h : Heap) (c : CCol) : Heap × Nat :=
  ({ next := h.next + 1, mem := (h.next, c) :: h.mem }, h.next)

/-- Heap sanity: every allocated address is below `next`. -/
def Heap.wf (h : Heap) : Bool :=
  h.mem.all fun p => p.1 < h.next

/-- The shape of a column configuration tree, as addresses into a heap:
the termination witness for the structural recursion of
`linkColumnStructure` along the (acyclic) `columns` pointers. -/
inductive CTree where
  | mk (addr : Nat) (children : List CTree)

def CTree.addr : CTree → Nat
  | .mk a _ => a

mutual

/-- The tree `t` is the structural image of the object graph in `h`: the
record at each address lists exactly the child addresses of the tree. -/
def realizes (h : Heap) : CTree → Bool
  | .mk a kids =>
      (match (h.get a).columns with
       | none => kids.isEmpty
       | some addrs => addrs == kids.map CTree.addr) &&
      realizesList h kids

def realizesList (h : Heap) : List CTree → Bool
  | [] => true
  | t :: rest => realizes h t && realizesList h rest

end

/-- `linkColumnStructure(columns, parent, depth)` of `src/utils.js` (lines
15-30).  For each column of the array: build the shallow copy
`{ ...column, parent, depth }` (a fresh object), run
`assignColumnAccessor` on the copy (mutating only the copy), and if the
copy has nested `columns` recurse and replace the copy's `columns` with
the freshly built array.  The returned addresses are the new array; a
thrown configuration error propagates.  The explicit fuel only bounds the
recursion so the embedding is total and kernel-computable; exhausting it
models the stack overflow JS reaches on a cyclic configuration graph, and
any fuel larger than the node count of the configuration is adequate. -/
def linkColumnStructure : Nat → Heap → List CTree → Option Nat → Nat → Except String (Heap × List Nat)
  | 0, _, _, _, _ => .error "RangeError: Maximum call stack size exceeded"
  | _ + 1, h, [], _, _ => .ok (h, [])
  | fuel + 1, h, .mk a kids :: rest, parent, depth =>
      let copy := { h.get a with parent := parent, depth := depth }
      let alloc1 := h.alloc copy
      let h1 := alloc1.1
      let a1 := alloc1.2
      match assignColumnAccessor (h1.get a1) with
      | .error e => .error e
      | .ok c1 =>
          let h2 := h1.set a1 c1
          match c1.columns with
          | some _ =>
              match linkColumnStructure fuel h2 kids (some a1) (depth + 1) with
              | .error e => .error e
              | .ok (h3, kidAddrs) =>
                  let h4 := h3.set a1 { h3.get a1 with columns := some kidAddrs }
                  match linkColumnStructure fuel h4 rest parent depth with
                  | .error e => .error e
                  | .ok (h5, rests) => .ok (h5, a1 :: rests)
          | none =>
              match linkColumnStructure fuel h2 rest parent depth with
              | .error e => .error e
              | .ok (h5, rests) => .ok (h5, a1 :: rests)

/-- An address is allocated in the heap. -/
def Heap.has (h : Heap) (a : Nat) : Bool :=
  (h.mem.find? fun p => p.1 == a).isSome

theorem findAssoc_map_set_ne (mem : List (Nat × CCol)) (a b : Nat) (c : CCol) (hne : b ≠ a) :
    ((mem.map fun p => if p.1 = a then (a, c) else p).find? fun p => p.1 == b) =
      mem.find? fun p => p.1 == b := by
  induction mem with
  | nil => rfl
  | cons p rest ih =>
      simp only [List.map_cons]
      by_cases hpa : p.1 = a
      · rw [if_pos hpa]
        rw [List.find?_cons_of_neg _ (by simpa using Ne.symm hne),
            List.find?_cons_of_neg _ (by simp only [beq_iff_eq, hpa]; exact Ne.symm hne)]
        exact ih
      · rw [if_neg hpa]
        by_cases hpb : p.1 = b
        · rw [List.find?_cons_of_pos _ (by simpa using hpb),
              List.find?_cons_of_pos _ (by simpa using hpb)]
        · rw [List.find?_cons_of_neg _ (by simpa using hpb),
              List.find?_cons_of_neg _ (by simpa using hpb)]
          exact ih

theorem findAssoc_map_set_self (mem : List (Nat × CCol)) (a : Nat) (c : CCol) :
    ((mem.map fun p => if p.1 = a then (a, c) else p).find? fun p => p.1 == a) =
      (mem.find? fun p => p.1 == a).map fun _ => (a, c) := by
  induction mem with
  | nil => rfl
  | cons p rest ih =>
      simp only [List.map_cons]
      by_cases hpa : p.1 = a
      · rw [if_pos hpa]
        rw [List.find?_cons_of_pos _ (by simp), List.find?_cons_of_pos _ (by simpa using hpa)]
        rfl
      · rw [if_neg hpa]
        rw [List.find?_cons_of_neg _ (by simpa using hpa),
            List.find?_cons_of_neg _ (by simpa using hpa)]
        exact ih

theorem Heap.get_set_ne (h : Heap) (a b : Nat) (c : CCol) (hne : b ≠ a) :
    (h.set a c).get b = h.get b := by
  simp only [Heap.get, Heap.set]
  rw [findAssoc_map_set_ne h.mem a b c hne]

theorem Heap.get_set_self (h : Heap) (a : Nat) (c : CCol) (hhas : h.has a = true) :
    (h.set a c).get a = c := by
  simp only [Heap.get, Heap.set]
  rw [findAssoc_map_set_self h.mem a c]
  simp only [Heap.has] at hhas
  cases hfind : h.mem.find? fun p => p.1 == a with
  | none => rw [hfind] at hhas; cases hhas
  | some p => simp [hfind]

theorem Heap.has_set (h : Heap) (a : Nat) (c : CCol) (b : Nat) :
    (h.set a c).has b = h.has b := by
  by_cases hba : b = a
  · subst hba
    simp only [Heap.has, Heap.set]
    rw [findAssoc_map_set_self h.mem b c]
    cases h.mem.find? fun p => p.1 == b <;> rfl
  · simp only [Heap.has, Heap.set]
    rw [findAssoc_map_set_ne h.mem a b c hba]

theorem Heap.next_set (h : Heap) (a : Nat) (c : CCol) : (h.set a c).next = h.next := rfl

theorem Heap.wf_set (h : Heap) (a : Nat) (c : CCol) (hwf : h.wf = true) :
    (h.set a c).wf = true := by
  simp only [Heap.wf, Heap.set, List.all_eq_true, List.mem_map, decide_eq_true_eq] at *
  rintro x ⟨q, hq, hmap⟩
  by_cases hqa : q.1 = a
  · rw [if_pos hqa] at hmap
    subst hmap
    simpa [← hqa] using hwf q hq
  · rw [if_neg hqa] at hmap
    subst hmap
    exact hwf q hq

theorem Heap.get_alloc_self (h : Heap) (c : CCol) :
    (h.alloc c).1.get (h.alloc c).2 = c := by
  simp only [Heap.get, Heap.alloc]
  rw [List.find?_cons_of_pos _ (by simp)]
  rfl

theorem Heap.get_alloc_ne (h : Heap) (c : CCol) (a : Nat) (ha : a ≠ h.next) :
    (h.alloc c).1.get a = h.get a := by
  simp only [Heap.get, Heap.alloc]
  rw [List.find?_cons_of_neg _ (by simpa using Ne.symm ha)]

theorem Heap.has_alloc_self (h : Heap) (c : CCol) :
    (h.alloc c).1.has (h.alloc c).2 = true := by
  simp only [Heap.has, Heap.alloc]
  rw [List.find?_cons_of_pos _ (by simp)]
  rfl

theorem Heap.has_alloc_of (h : Heap) (c : CCol) (a : Nat) (hhas : h.has a = true) :
    (h.alloc c).1.has a = true := by
  simp only [Heap.has, Heap.alloc]
  by_cases hna : h.next = a
  · rw [List.find?_cons_of_pos _ (by simpa using hna)]
    rfl
  · rw [List.find?_cons_of_neg _ (by simpa using hna)]
    exact hhas

theorem Heap.next_alloc (h : Heap) (c : CCol) : (h.alloc c).1.next = h.next + 1 := rfl

theorem Heap.wf_alloc (h : Heap) (c : CCol) (hwf : h.wf = true) :
    (h.alloc c).1.wf = true := by
  simp only [Heap.wf, Heap.alloc, List.all_cons, Bool.and_eq_true, List.all_eq_true,
    decide_eq_true_eq] at *
  exact ⟨by omega, fun p hp => by have := hwf p hp; omega⟩

mutual

/-- Every address of the configuration tree is allocated below `n`
(the input configuration lives in the caller's heap). -/
def addrBelow (n : Nat) : CTree → Bool
  | .mk a kids => decide (a < n) && addrsBelow n kids

def addrsBelow (n : Nat) : List CTree → Bool
  | [] => true
  | t :: rest => addrBelow n t && addrsBelow n rest

end

mutual

/-- The record at address a2 of the result heap hr is the fresh copy that
`linkColumnStructure` builds for the configuration subtree rooted at the
node of the source heap h, at the given parent and depth: a2 lies at or
above the old allocation bound (so it is not an address of the caller),
the record is the `assignColumnAccessor` image of the shallow copy
`{ ...column, parent, depth }` of the source record, and when that image
has nested `columns` they are replaced by the addresses of recursively
fresh copies of the children (at parent a2 and depth + 1); when it has
none the record is kept verbatim. -/
def copied (h hr : Heap) (parent : Option Nat) (depth : Nat) : CTree → Nat → Prop
  | .mk a kids, a2 =>
      (h.next ≤ a2 ∧ a2 < hr.next) ∧
      ∃ c', assignColumnAccessor { h.get a with parent := parent, depth := depth } = .ok c' ∧
        match c'.columns with
        | none => hr.get a2 = c'
        | some _ => ∃ kidAddrs,
            hr.get a2 = { c' with columns := some kidAddrs } ∧
            copiedList h hr (some a2) (depth + 1) kids kidAddrs

/-- Pointwise `copied` between the configuration subtrees and the returned
address list, forcing equal lengths. -/
def copiedList (h hr : Heap) (parent : Option Nat) (depth : Nat) : List CTree → List Nat → Prop
  | [], [] => True
  | t :: ts, a2 :: rest => copied h hr parent depth t a2 ∧ copiedList h hr parent depth ts rest
  | _, _ => False

end

theorem addrsBelow_mono {n m : Nat} (hnm : n ≤ m) :
    ∀ ts : List CTree, addrsBelow n ts = true → addrsBelow m ts = true
  | [], _ => rfl
  | .mk a kids :: rest, hb => by
      simp only [addrsBelow, addrBelow, Bool.and_eq_true, decide_eq_true_eq] at hb ⊢
      exact ⟨⟨by omega, addrsBelow_mono hnm kids hb.1.2⟩, addrsBelow_mono hnm rest hb.2⟩

theorem assignColumnAccessor_ok_shape {c c' : CCol} (hok : assignColumnAccessor c = .ok c') :
    c' = { c with id := (resolveColumnId c).1, accessor := (resolveColumnId c).2 } := by
  unfold assignColumnAccessor at hok
  by_cases h1 : (!optStrTruthy (resolveColumnId c).1 && c.columns.isSome) = true
  · rw [if_pos h1] at hok
    exact absurd hok (by simp)
  · rw [if_neg h1] at hok
    by_cases h2 : (!optStrTruthy (resolveColumnId c).1) = true
    · rw [if_pos h2] at hok
      exact absurd hok (by simp)
    · rw [if_neg h2] at hok
      cases hok
      rfl

theorem assignColumnAccessor_fields {c c' : CCol} (hok : assignColumnAccessor c = .ok c') :
    c'.Header = c.Header ∧ c'.columns = c.columns ∧ c'.parent = c.parent ∧ c'.depth = c.depth := by
  rw [assignColumnAccessor_ok_shape hok]
  exact ⟨rfl, rfl, rfl, rfl⟩

theorem addrBelow_addr_lt {n : Nat} {t : CTree} (hb : addrBelow n t = true) : t.addr < n := by
  cases t with
  | mk a kids =>
      simp only [addrBelow, Bool.and_eq_true, decide_eq_true_eq] at hb
      exact hb.1

theorem forall₂_with_addrsBelow {P : CTree → Nat → Prop} {n : Nat} :
    ∀ {ts : List CTree} {as : List Nat}, addrsBelow n ts = true → List.Forall₂ P ts as →
      List.Forall₂ (fun t a => addrBelow n t = true ∧ P t a) ts as := by
  intro ts as hb hf
  induction hf with
  | nil => exact .nil
  | @cons t a ts' as' hp hf ih =>
      simp only [addrsBelow, Bool.and_eq_true] at hb
      exact .cons ⟨hb.1, hp⟩ (ih hb.2)

/-- `copiedList` is stable under growing the result heap, as long as the
records at or above the source bound are unchanged. -/
theorem copiedList_res_mono {h h1 h2 : Heap}
    (hget : ∀ b, h.next ≤ b → b < h1.next → h2.get b = h1.get b)
    (hnext : h1.next ≤ h2.next) :
    ∀ (parent : Option Nat) (depth : Nat) (ts : List CTree) (rs : List Nat),
      copiedList h h1 parent depth ts rs → copiedList h h2 parent depth ts rs
  | _, _, [], [], _ => True.intro
  | _, _, [], _ :: _, hc => hc.elim
  | _, _, _ :: _, [], hc => hc.elim
  | parent, depth, .mk a kids :: rest, a2 :: rs, hc => by
      simp only [copiedList, copied] at hc ⊢
      obtain ⟨⟨⟨ha1, ha2⟩, c', hass, hm⟩, hrest⟩ := hc
      refine ⟨⟨⟨ha1, by omega⟩, c', hass, ?_⟩,
        copiedList_res_mono hget hnext parent depth rest rs hrest⟩
      cases hcols : c'.columns with
      | none =>
          simp only [hcols] at hm ⊢
          rw [hget a2 ha1 ha2]
          exact hm
      | some cols0 =>
          simp only [hcols] at hm ⊢
          obtain ⟨kidAddrs, hga, hkids⟩ := hm
          exact ⟨kidAddrs, by rw [hget a2 ha1 ha2]; exact hga,
            copiedList_res_mono hget hnext (some a2) (depth + 1) kids kidAddrs hkids⟩

/-- `copiedList` transports along a frame between source heaps: a copy made
from an intermediate heap that agrees with the original heap below its
allocation bound is a copy from the original heap, with freshness
weakening to the lower bound. -/
theorem copiedList_src_mono {h h0 hr : Heap}
    (hget : ∀ b, b < h.next → h0.get b = h.get b)
    (hnext : h.next ≤ h0.next) :
    ∀ (parent : Option Nat) (depth : Nat) (ts : List CTree) (rs : List Nat),
      addrsBelow h.next ts = true →
      copiedList h0 hr parent depth ts rs → copiedList h hr parent depth ts rs
  | _, _, [], [], _, _ => True.intro
  | _, _, [], _ :: _, _, hc => hc.elim
  | _, _, _ :: _, [], _, hc => hc.elim
  | parent, depth, .mk a kids :: rest, a2 :: rs, hb, hc => by
      simp only [addrsBelow, addrBelow, Bool.and_eq_true, decide_eq_true_eq] at hb
      obtain ⟨⟨halt, hbkids⟩, hbrest⟩ := hb
      simp only [copiedList, copied] at hc ⊢
      obtain ⟨⟨⟨ha1, ha2⟩, c', hass, hm⟩, hrest⟩ := hc
      rw [hget a halt] at hass
      refine ⟨⟨⟨by omega, ha2⟩, c', hass, ?_⟩,
        copiedList_src_mono hget hnext parent depth rest rs hbrest hrest⟩
      cases hcols : c'.columns with
      | none =>
          simp only [hcols] at hm ⊢
          exact hm
      | some cols0 =>
          simp only [hcols] at hm ⊢
          obtain ⟨kidAddrs, hga, hkids⟩ := hm
          exact ⟨kidAddrs, hga,
            copiedList_src_mono hget hnext (some a2) (depth + 1) kids kidAddrs hbkids hkids⟩

/-- C10: `linkColumnStructure` returns freshly allocated column objects —
each the shallow copy `{ ...column, parent, depth }` of the input node,
further updated only by `assignColumnAccessor` and by replacement of its
nested `columns` with the addresses of fresh copies, recursively down the
whole configuration tree — and leaves every record of the caller's
original configuration (every address already allocated) untouched:
id/accessor assignment mutates only the copies.  The `copiedList` clause
ties each input root to its returned copy: the address is fresh (at or
above the old allocation bound, hence never a caller address), the final
record is the `assignColumnAccessor` image of the extended shallow copy,
and its `columns` field, when present, holds the addresses of likewise
fresh recursive copies of the children — so no copy shares or drops the
original child objects. -/
theorem linkColumnStructure_frame :
    ∀ (fuel : Nat) (h : Heap) (ts : List CTree) (parent : Option Nat) (depth : Nat)
      (h' : Heap) (as : List Nat),
      Heap.wf h = true →
      addrsBelow h.next ts = true →
      linkColumnStructure fuel h ts parent depth = .ok (h', as) →
      (∀ a, a < h.next → h'.get a = h.get a) ∧
      h.next ≤ h'.next ∧ Heap.wf h' = true ∧
      (∀ a, Heap.has h a = true → Heap.has h' a = true) ∧
      copiedList h h' parent depth ts as := by
  intro fuel
  induction fuel with
  | zero =>
      intro h ts parent depth h' as _ _ hres
      simp [linkColumnStructure] at hres
  | succ fuel ih =>
      intro h ts parent depth h' as hwf hb hres
      cases ts with
      | nil =>
          simp only [linkColumnStructure, Except.ok.injEq, Prod.mk.injEq] at hres
          obtain ⟨rfl, rfl⟩ := hres
          exact ⟨fun a _ => rfl, le_refl _, hwf, fun a ha => ha, True.intro⟩
      | cons t rest =>
          cases t with
          | mk a kids =>
          simp only [addrsBelow, addrBelow, Bool.and_eq_true, decide_eq_true_eq] at hb
          obtain ⟨⟨halt, hbkids⟩, hbrest⟩ := hb
          simp only [linkColumnStructure] at hres
          rw [Heap.get_alloc_self] at hres
          set copy : CCol := { h.get a with parent := parent, depth := depth } with hcopy
          cases hassign : assignColumnAccessor copy with
          | error e => rw [hassign] at hres; simp at hres
          | ok c1 =>
          rw [hassign] at hres
          dsimp only at hres
          rw [show (h.alloc copy).2 = h.next from rfl] at hres
          set h1 : Heap := (h.alloc copy).1 with hh1
          set h2 : Heap := h1.set h.next c1 with hh2
          have hwf1 : h1.wf = true := Heap.wf_alloc h copy hwf
          have hwf2 : h2.wf = true := Heap.wf_set h1 h.next c1 hwf1
          have hnext2 : h2.next = h.next + 1 := rfl
          have hhas2self : h2.has h.next = true := by
            rw [hh2, Heap.has_set]
            exact Heap.has_alloc_self h copy
          have hget2self : h2.get h.next = c1 :=
            Heap.get_set_self h1 h.next c1 (Heap.has_alloc_self h copy)
          have hframe02 : ∀ b, b < h.next → h2.get b = h.get b := by
            intro b hblt
            rw [hh2, Heap.get_set_ne h1 h.next b c1 (by omega), hh1,
              Heap.get_alloc_ne h copy b (by omega)]
          have hhas02 : ∀ b, Heap.has h b = true → h2.has b = true := by
            intro b hbh
            rw [hh2, Heap.has_set]
            exact Heap.has_alloc_of h copy b hbh
          cases hcols : c1.columns with
          | some cols0 =>
              rw [hcols] at hres
              dsimp only at hres
              cases hkids : linkColumnStructure fuel h2 kids (some h.next) (depth + 1) with
              | error e => rw [hkids] at hres; simp at hres
              | ok pr =>
              obtain ⟨h3, kidAddrs⟩ := pr
              rw [hkids] at hres
              dsimp only at hres
              obtain ⟨hframe23, hnext23, hwf3, hhas23, hcopkids⟩ :=
                ih h2 kids (some h.next) (depth + 1) h3 kidAddrs hwf2
                  (addrsBelow_mono (by omega) kids hbkids) hkids
              set h4 : Heap := h3.set h.next { h3.get h.next with columns := some kidAddrs }
                with hh4
              have hwf4 : h4.wf = true := Heap.wf_set h3 h.next _ hwf3
              have hnext4 : h4.next = h3.next := rfl
              cases hrest : linkColumnStructure fuel h4 rest parent depth with
              | error e => rw [hrest] at hres; simp at hres
              | ok pr2 =>
              obtain ⟨h5, rests⟩ := pr2
              rw [hrest] at hres
              simp only [Except.ok.injEq, Prod.mk.injEq] at hres
              obtain ⟨rfl, rfl⟩ := hres
              obtain ⟨hframe45, hnext45, hwf5, hhas45, hf2rest⟩ :=
                ih h4 rest parent depth h5 rests hwf4
                  (addrsBelow_mono (by omega) rest hbrest) hrest
              have hget34 : ∀ b, b < h.next → h4.get b = h3.get b := by
                intro b hblt
                exact Heap.get_set_ne h3 h.next b _ (by omega)
              have hframe05 : ∀ b, b < h.next → h5.get b = h.get b := by
                intro b hblt
                rw [hframe45 b (by omega), hget34 b hblt, hframe23 b (by omega), hframe02 b hblt]
              have hhas34 : ∀ b, h3.has b = true → h4.has b = true := by
                intro b hbh
                rw [hh4, Heap.has_set]
                exact hbh
              have hget4self : h4.get h.next = { c1 with columns := some kidAddrs } := by
                rw [hh4]
                rw [show h3.get h.next = c1 from by rw [hframe23 h.next (by omega), hget2self]]
                exact Heap.get_set_self h3 h.next _ (hhas23 h.next hhas2self)
              refine ⟨hframe05, by omega, hwf5, ?_, ?_⟩
              · intro b hbh
                exact hhas45 b (hhas34 b (hhas23 b (hhas02 b hbh)))
              · have hkids45 : copiedList h2 h5 (some h.next) (depth + 1) kids kidAddrs := by
                  refine copiedList_res_mono (fun b hb1 hb2 => hframe45 b hb2) hnext45
                    (some h.next) (depth + 1) kids kidAddrs ?_
                  refine copiedList_res_mono ?_ (le_of_eq hnext4.symm)
                    (some h.next) (depth + 1) kids kidAddrs hcopkids
                  intro b hb1 hb2
                  exact Heap.get_set_ne h3 h.next b _ (by omega)
                have hkids05 : copiedList h h5 (some h.next) (depth + 1) kids kidAddrs :=
                  copiedList_src_mono hframe02 (by omega) (some h.next) (depth + 1)
                    kids kidAddrs hbkids hkids45
                have hrest05 : copiedList h h5 parent depth rest rests := by
                  refine copiedList_src_mono ?_ (by omega) parent depth rest rests hbrest hf2rest
                  intro b hblt
                  rw [hget34 b hblt, hframe23 b (by omega), hframe02 b hblt]
                simp only [copiedList, copied]
                refine ⟨⟨⟨le_refl _, by omega⟩, c1, by simpa [hcopy] using hassign, ?_⟩, hrest05⟩
                simp only [hcols]
                exact ⟨kidAddrs, by rw [hframe45 h.next (by omega)]; exact hget4self, hkids05⟩
          | none =>
              rw [hcols] at hres
              dsimp only at hres
              cases hrest : linkColumnStructure fuel h2 rest parent depth with
              | error e => rw [hrest] at hres; simp at hres
              | ok pr2 =>
              obtain ⟨h5, rests⟩ := pr2
              rw [hrest] at hres
              simp only [Except.ok.injEq, Prod.mk.injEq] at hres
              obtain ⟨rfl, rfl⟩ := hres
              obtain ⟨hframe25, hnext25, hwf5, hhas25, hf2rest⟩ :=
                ih h2 rest parent depth h5 rests hwf2
                  (addrsBelow_mono (by omega) rest hbrest) hrest
              have hframe05 : ∀ b, b < h.next → h5.get b = h.get b := by
                intro b hblt
                rw [hframe25 b (by omega), hframe02 b hblt]
              refine ⟨hframe05, by omega, hwf5, ?_, ?_⟩
              · intro b hbh
                exact hhas25 b (hhas02 b hbh)
              · have hrest05 : copiedList h h5 parent depth rest rests :=
                  copiedList_src_mono hframe02 (by omega) parent depth rest rests hbrest hf2rest
                simp only [copiedList, copied]
                refine ⟨⟨⟨le_refl _, by omega⟩, c1, by simpa [hcopy] using hassign, ?_⟩, hrest05⟩
                simp only [hcols]
                rw [hframe25 h.next (by omega)]
                exact hget2self

theorem resolveColumnId_fst_of_truthy {c : CCol} (ht : optStrTruthy c.id = true) :
    (resolveColumnId c).1 = c.id := by
  cases hacc : c.accessor with
  | none => simp [resolveColumnId, hacc, ht]
  | some acc => cases acc <;> simp [resolveColumnId, hacc, ht]

theorem assignColumnAccessor_ok_of_truthy {c : CCol}
    (ht : optStrTruthy (resolveColumnId c).1 = true) :
    assignColumnAccessor c =
      .ok { c with id := (resolveColumnId c).1, accessor := (resolveColumnId c).2 } := by
  simp [assignColumnAccessor, ht]

theorem resolveColumnId_of_no_str {c : CCol}
    (hnacc : ∀ s, c.accessor ≠ some (.str s))
    (hhdr : ∀ hs, c.Header = some (.str hs) → hs = "") :
    (resolveColumnId c).1 = c.id := by
  have hidacc :
      (match c.accessor with
        | some (.str s) =>
            ((if optStrTruthy c.id then c.id else some s : Option String),
             some (Accessor.pathFn (splitOnDot s.data)))
        | other => (c.id, other)) = (c.id, c.accessor) := by
    cases hacc : c.accessor with
    | none => rfl
    | some acc =>
        cases acc with
        | str s => exact absurd hacc (hnacc s)
        | pathFn p => rfl
        | fn t => rfl
  simp only [resolveColumnId, hidacc]
  cases ht : optStrTruthy c.id
  · simp only [Bool.not_false, if_pos rfl]
    cases hh : c.Header with
    | none => rfl
    | some hv =>
        cases hv with
        | str hs =>
            rw [hhdr hs hh]
            rfl
        | component t => rfl
  · simp

/-- The concrete column of the C1 counterexample: an explicit but empty
(falsy) `id` together with the string accessor `"a"`. -/
def c1cexColumn : CCol :=
  { id := some "", accessor := some (.str "a"), Header := none, columns := none,
    parent := none, depth := 0 }

/-- C1, counterexample to the claim as stated: this column carries an
explicit `id` (the empty string), yet `assignColumnAccessor` does not
materialize that id — JavaScript `id = id || accessor` treats the falsy
`""` as absent and the materialized id is the accessor string `"a"`. -/
theorem assignColumnAccessor_explicit_empty_id_cex :
    c1cexColumn.id = some "" ∧
    assignColumnAccessor c1cexColumn =
      .ok { c1cexColumn with id := some "a", accessor := some (.pathFn ["a"]) } ∧
    some "a" ≠ c1cexColumn.id :=
  ⟨rfl, rfl, by simp [c1cexColumn]⟩

/-- C1 (amended): column id resolution follows the priority truthy
explicit id, then non-empty string accessor, then non-empty string Header
label: (1) a column with a non-empty explicit `id` keeps it; (2) a column
with a falsy `id` and a non-empty string accessor gets the accessor string
as id, the accessor becoming the path closure over its split; (3) a column
with a falsy `id`, no string accessor and no non-empty string `Header`
makes `assignColumnAccessor` throw a configuration error; and (4) that
error is raised by `linkColumnStructure`, i.e. at column-materialization
time, before any row processing.  (The unamended claim fails only on
JavaScript falsiness of the empty string, see the counterexample.) -/
theorem assignColumnAccessor_id_resolution :
    (∀ (c : CCol) (s : String), c.id = some s → s ≠ "" →
        ∃ c', assignColumnAccessor c = .ok c' ∧ c'.id = some s) ∧
    (∀ (c : CCol) (s : String), optStrTruthy c.id = false →
        c.accessor = some (.str s) → s ≠ "" →
        ∃ c', assignColumnAccessor c = .ok c' ∧ c'.id = some s ∧
          c'.accessor = some (.pathFn (splitOnDot s.data))) ∧
    (∀ c : CCol, optStrTruthy c.id = false → (∀ s, c.accessor ≠ some (.str s)) →
        (∀ hs, c.Header = some (.str hs) → hs = "") →
        ∃ e, assignColumnAccessor c = .error e) ∧
    (∀ (fuel : Nat) (h : Heap) (a : Nat) (kids ts : List CTree)
        (parent : Option Nat) (depth : Nat),
        optStrTruthy (h.get a).id = false → (∀ s, (h.get a).accessor ≠ some (.str s)) →
        (∀ hs, (h.get a).Header = some (.str hs) → hs = "") →
        ∃ e, linkColumnStructure (fuel + 1) h (.mk a kids :: ts) parent depth = .error e) := by
  have part3 : ∀ c : CCol, optStrTruthy c.id = false → (∀ s, c.accessor ≠ some (.str s)) →
      (∀ hs, c.Header = some (.str hs) → hs = "") →
      ∃ e, assignColumnAccessor c = .error e := by
    intro c hf hnacc hhdr
    have hr1 := resolveColumnId_of_no_str hnacc hhdr
    by_cases hcs : c.columns.isSome = true
    · exact ⟨"A column ID (or unique \x22Header\x22 value) is required!",
        by simp [assignColumnAccessor, hr1, hf, hcs]⟩
    · exact ⟨"A column ID (or string accessor) is required!",
        by simp [assignColumnAccessor, hr1, hf, hcs]⟩
  refine ⟨?_, ?_, part3, ?_⟩
  · intro c s hid hs
    have ht : optStrTruthy c.id = true := by
      simp [optStrTruthy, hid, hs]
    refine ⟨_, assignColumnAccessor_ok_of_truthy (by rw [resolveColumnId_fst_of_truthy ht]; exact ht), ?_⟩
    show (resolveColumnId c).1 = some s
    rw [resolveColumnId_fst_of_truthy ht, hid]
  · intro c s hf hacc hs
    have hts : optStrTruthy (some s) = true := by simp [optStrTruthy, hs]
    have hr : resolveColumnId c = (some s, some (.pathFn (splitOnDot s.data))) := by
      simp [resolveColumnId, hacc, hf, hts]
    refine ⟨_, assignColumnAccessor_ok_of_truthy (by rw [hr]; exact hts), ?_, ?_⟩
    · show (resolveColumnId c).1 = some s
      rw [hr]
    · show (resolveColumnId c).2 = some (.pathFn (splitOnDot s.data))
      rw [hr]
  · intro fuel h a kids ts parent depth hf hnacc hhdr
    have hbad := part3 { h.get a with parent := parent, depth := depth } hf hnacc hhdr
    obtain ⟨e, he⟩ := hbad
    refine ⟨e, ?_⟩
    simp only [linkColumnStructure]
    rw [Heap.get_alloc_self, he]

/-- Concrete columns exercising each clause of the amended C1 theorem. -/
def c1wA : CCol :=
  { id := some "x", accessor := some (.str "y"), Header := none, columns := none,
    parent := none, depth := 0 }

def c1wB : CCol :=
  { id := none, accessor := some (.str "nm"), Header := none, columns := none,
    parent := none, depth := 0 }

def c1wC : CCol :=
  { id := none, accessor := none, Header := some (.str ""), columns := none,
    parent := none, depth := 0 }

def c1wHeap : Heap := { next := 1, mem := [(0, c1wC)] }

theorem assignColumnAccessor_id_resolution_witness :
    (∃ c', assignColumnAccessor c1wA = .ok c' ∧ c'.id = some "x") ∧
    (∃ c', assignColumnAccessor c1wB = .ok c' ∧ c'.id = some "nm" ∧
      c'.accessor = some (.pathFn (splitOnDot "nm".data))) ∧
    (∃ e, assignColumnAccessor c1wC = .error e) ∧
    (∃ e, linkColumnStructure 4 c1wHeap [.mk 0 []] none 0 = .error e) := by
  refine ⟨assignColumnAccessor_id_resolution.1 c1wA "x" rfl (by simp),
    assignColumnAccessor_id_resolution.2.1 c1wB "nm" rfl rfl (by simp),
    assignColumnAccessor_id_resolution.2.2.1 c1wC rfl (fun s h => Option.noConfusion h) ?_,
    assignColumnAccessor_id_resolution.2.2.2 3 c1wHeap 0 [] [] none 0 rfl
      (fun s h => Option.noConfusion h) ?_⟩
  · intro hs h
    injection h with h1
    injection h1 with h2
    exact h2.symm
  · intro hs h
    injection h with h1
    injection h1 with h2
    exact h2.symm

/-- A concrete two-level configuration for the C10 witness. -/
def c10heap : Heap :=
  { next := 2,
    mem := [(0, { defaultCCol with accessor := some (.str "a.b") }),
            (1, { defaultCCol with Header := some (.str "Group"), columns := some [0] })] }

def c10trees : List CTree := [.mk 1 [.mk 0 []]]

def c10result : Heap × List Nat :=
  match linkColumnStructure 10 c10heap c10trees none 0 with
  | .ok r => r
  | .error _ => (c10heap, [])

theorem linkColumnStructure_frame_witness :
    (∀ a, a < c10heap.next → c10result.1.get a = c10heap.get a) ∧
    c10heap.next ≤ c10result.1.next ∧ Heap.wf c10result.1 = true ∧
    (∀ a, Heap.has c10heap a = true → Heap.has c10result.1 a = true) ∧
    copiedList c10heap c10result.1 none 0 c10trees c10result.2 :=
  linkColumnStructure_frame 10 c10heap c10trees none 0 c10result.1 c10result.2 rfl rfl rfl

/-- A row as `expandRows` sees it: its id, the raw `original` item
(`JSVal.undef` when the row has none, e.g. synthetic group rows) and the
optional `subRows` array. -/
inductive XRow where
  | mk (id : String) (original : JSVal) (subRows : Option (List XRow))

def XRow.id : XRow → String
  | .mk i _ _ => i

def XRow.original : XRow → JSVal
  | .mk _ o _ => o

def XRow.subRows : XRow → Option (List XRow)
  | .mk _ _ s => s

/-- A property read whose base is guarded by a truthiness test in the
source (`row.original && row.original[manualExpandedKey]`), or whose base
is a plain object (the `expanded` state), so the TypeError branch of
`jsGet` is unreachable and collapsed to `undefined`. -/
def getProp (o : JSVal) (k : String) : JSVal :=
  match jsGet o k with
  | .ok v => v
  | .error _ => (.undef)

/-- A row after `expandRows` marked it: the JS code mutates the row object
in place, storing a truthy/falsy value in `isExpanded` and `canExpand`;
the marks are modelled by their truthiness. -/
structure MRow where
  id : String
  original : JSVal
  subRows : Option (List XRow)
  isExpanded : Bool
  canExpand : Bool

mutual

/-- `handleRow` of `expandRows` (`src/utils.js` lines 345-356): mark the
row, push it onto the shared `expandedRows` accumulator, and when
`expandSubRows && row.subRows && row.subRows.length && row.isExpanded`
recurse into the sub-rows. -/
def handleRow (manualExpandedKey : String) (expanded : List (String × JSVal))
    (expandSubRows : Bool) (r : XRow) (acc : List MRow) : List MRow :=
  match r with
  | .mk id orig subs =>
      let isExp := (truthy orig && truthy (getProp orig manualExpandedKey))
        || truthy (getProp (.obj expanded) id)
      let canExp := match subs with
        | some l => !l.isEmpty
        | none => false
      let acc1 := acc ++ [⟨id, orig, subs, isExp, canExp⟩]
      match subs with
      | some l =>
          if expandSubRows && !l.isEmpty && isExp then
            handleRows manualExpandedKey expanded expandSubRows l acc1
          else acc1
      | none => acc1

/-- The `rows.forEach(handleRow)` / `row.subRows.forEach(handleRow)`
loops. -/
def handleRows (manualExpandedKey : String) (expanded : List (String × JSVal))
    (expandSubRows : Bool) (rs : List XRow) (acc : List MRow) : List MRow :=
  match rs with
  | [] => acc
  | r :: rest =>
      handleRows manualExpandedKey expanded expandSubRows rest
        (handleRow manualExpandedKey expanded expandSubRows r acc)

end

/-- `expandRows(rows, { manualExpandedKey, expanded, expandSubRows })` of
`src/utils.js` (lines 339-361): returns the flat `expandedRows`
accumulator.  The `expanded` state object is passed as its field list. -/
def expandRows (rows : List XRow) (manualExpandedKey : String)
    (expanded : List (String × JSVal)) (expandSubRows : Bool) : List MRow :=
  handleRows manualExpandedKey expanded expandSubRows rows []

mutual

/-- Specification-side flattener: emit the marked row, followed
immediately by its flattened descendants when it is expanded and can
expand, omitting the descendants of a collapsed row entirely. -/
def expandFlat (manualExpandedKey : String) (expanded : List (String × JSVal))
    (r : XRow) : List MRow :=
  match r with
  | .mk id orig subs =>
      let m : MRow :=
        ⟨id, orig, subs,
          (truthy orig && truthy (getProp orig manualExpandedKey))
            || truthy (getProp (.obj expanded) id),
          match subs with | some l => !l.isEmpty | none => false⟩
      m :: (match subs with
        | some l =>
            if m.isExpanded && m.canExpand then
              expandFlatList manualExpandedKey expanded l
            else []
        | none => [])

def expandFlatList (manualExpandedKey : String) (expanded : List (String × JSVal)) :
    List XRow → List MRow
  | [] => []
  | r :: rest =>
      expandFlat manualExpandedKey expanded r ++ expandFlatList manualExpandedKey expanded rest

end

mutual

theorem handleRow_append (k : String) (e : List (String × JSVal)) :
    ∀ (r : XRow) (acc : List MRow),
      handleRow k e true r acc = acc ++ expandFlat k e r
  | .mk id orig subs, acc => by
      rw [handleRow.eq_def, expandFlat.eq_def]
      dsimp only
      cases subs with
      | none => simp
      | some l =>
          dsimp only
          cases hE : (truthy orig && truthy (getProp orig k))
              || truthy (getProp (.obj e) id) with
          | false => simp
          | true =>
              cases hL : l.isEmpty with
              | true => simp
              | false =>
                  simp only [Bool.true_and, Bool.not_false, Bool.and_true, Bool.and_self,
                    if_pos rfl]
                  rw [handleRows_append k e l]
                  simp

theorem handleRows_append (k : String) (e : List (String × JSVal)) :
    ∀ (rs : List XRow) (acc : List MRow),
      handleRows k e true rs acc = acc ++ expandFlatList k e rs
  | [], acc => by rw [handleRows.eq_def, expandFlatList.eq_def]; simp
  | r :: rest, acc => by
      rw [handleRows.eq_def, expandFlatList.eq_def]
      dsimp only
      rw [handleRow_append k e r, handleRows_append k e rest, List.append_assoc]

end

mutual

theorem expandFlat_marks (k : String) (e : List (String × JSVal)) :
    ∀ (r : XRow) (m : MRow), m ∈ expandFlat k e r →
      (m.isExpanded = ((truthy m.original && truthy (getProp m.original k))
        || truthy (getProp (.obj e) m.id))) ∧
      (m.canExpand = true ↔ ∃ l, m.subRows = some l ∧ l ≠ [])
  | .mk id orig subs, m, hm => by
      rw [expandFlat.eq_def] at hm
      dsimp only at hm
      rcases List.mem_cons.mp hm with hhead | htail
      · subst hhead
        refine ⟨rfl, ?_⟩
        cases subs with
        | none => simp
        | some l =>
            simp only [XRow.subRows]
            constructor
            · intro hl
              exact ⟨l, rfl, by simpa using hl⟩
            · rintro ⟨l', hl', hne⟩
              cases hl'
              simpa using hne
      · cases subs with
        | none => cases htail
        | some l =>
            dsimp only at htail
            split at htail
            · exact expandFlatList_marks k e l m htail
            · cases htail

theorem expandFlatList_marks (k : String) (e : List (String × JSVal)) :
    ∀ (rs : List XRow) (m : MRow), m ∈ expandFlatList k e rs →
      (m.isExpanded = ((truthy m.original && truthy (getProp m.original k))
        || truthy (getProp (.obj e) m.id))) ∧
      (m.canExpand = true ↔ ∃ l, m.subRows = some l ∧ l ≠ [])
  | r :: rest, m, hm => by
      rw [expandFlatList.eq_def] at hm
      dsimp only at hm
      rcases List.mem_append.mp hm with h1 | h2
      · exact expandFlat_marks k e r m h1
      · exact expandFlatList_marks k e rest m h2

end

/-- C6: `expandRows` (with the default `expandSubRows = true`) performs a
pre-order walk that marks each visited row: `isExpanded` is truthy exactly
when the raw data item's manual-expanded key is truthy or the expansion
state entry for the row's id is truthy, and `canExpand` exactly when
`subRows` is non-empty.  It returns the flattened sequence in which each
expanded row is followed immediately by its flattened descendants, while
the descendants of every collapsed row are structurally absent. -/
theorem expandRows_preorder_flatten (rows : List XRow) (manualExpandedKey : String)
    (expanded : List (String × JSVal)) :
    expandRows rows manualExpandedKey expanded true =
      expandFlatList manualExpandedKey expanded rows ∧
    ∀ m ∈ expandRows rows manualExpandedKey expanded true,
      (m.isExpanded = ((truthy m.original && truthy (getProp m.original manualExpandedKey))
        || truthy (getProp (.obj expanded) m.id))) ∧
      (m.canExpand = true ↔ ∃ l, m.subRows = some l ∧ l ≠ []) := by
  have heq : expandRows rows manualExpandedKey expanded true =
      expandFlatList manualExpandedKey expanded rows := by
    rw [expandRows, handleRows_append]
    simp
  refine ⟨heq, ?_⟩
  intro m hm
  rw [heq] at hm
  exact expandFlatList_marks manualExpandedKey expanded rows m hm

/-- The concrete forest of the C6 witness: row `"0"` is expanded with two
children, its sibling `"1"` is collapsed, so the child of `"1"` is absent
from the output. -/
def c6rows : List XRow :=
  [XRow.mk "0" (.obj []) (some [XRow.mk "0.0" (.obj []) none,
                                XRow.mk "0.1" (.obj []) none]),
   XRow.mk "1" (.obj []) (some [XRow.mk "1.0" (.obj []) none])]

def c6state : List (String × JSVal) := [("0", .bool true)]

/-- The first row emitted by `expandRows` on `c6rows`. -/
def c6m0 : MRow :=
  ⟨"0", .obj [], some [XRow.mk "0.0" (.obj []) none, XRow.mk "0.1" (.obj []) none],
    true, true⟩

theorem expandRows_preorder_flatten_witness :
    expandRows c6rows "expanded" c6state true = expandFlatList "expanded" c6state c6rows ∧
    (c6m0.isExpanded = ((truthy c6m0.original && truthy (getProp c6m0.original "expanded"))
        || truthy (getProp (.obj c6state) c6m0.id))) ∧
    (c6m0.canExpand = true ↔ ∃ l, c6m0.subRows = some l ∧ l ≠ []) :=
  ⟨(expandRows_preorder_flatten c6rows "expanded" c6state).1,
   ((expandRows_preorder_flatten c6rows "expanded" c6state).2 c6m0 (List.Mem.head _)).1,
   ((expandRows_preorder_flatten c6rows "expanded" c6state).2 c6m0 (List.Mem.head _)).2⟩

/-- The ancestor chain of a materialized column: each parent's id and its
own parent back-reference (the only parts of the parent objects that
`makeHeaderGroups` reads: `column.parent.id` for the constructed id and
originalId, and the spread `...column.parent` which carries the
grandparent pointer into the constructed cell). -/
inductive Chain where
  | mk (id : String) (parent : Option Chain)

def Chain.id : Chain → String
  | .mk i _ => i

def Chain.parent : Chain → Option Chain
  | .mk _ p => p

/-- A column as the `makeHeaderGroups` scan sees it: input leaf columns
(empty `headers`, no `originalId`) and the parent cells the loop
constructs (with `originalId` and accumulated `headers`).  `parent` is the
remaining ancestor chain; `isPlaceholder` marks the synthetic placeholder
cells. -/
inductive HCol where
  | mk (id : String) (originalId : Option String) (parent : Option Chain)
      (isPlaceholder : Bool) (headers : List HCol)

def HCol.id : HCol → String
  | .mk i _ _ _ _ => i

def HCol.originalId : HCol → Option String
  | .mk _ o _ _ _ => o

def HCol.parent : HCol → Option Chain
  | .mk _ _ p _ _ => p

def HCol.headers : HCol → List HCol
  | .mk _ _ _ _ hs => hs

/-- One header row of the grid. -/
structure HeaderGroup where
  headers : List HCol

/-- Lines 209-230 of `makeHeaderGroups`: the parent cell constructed for a
scanned column — its real parent spread with a uid-suffixed id, or a
synthetic placeholder (`decorateColumn` only adds rendering fields from
the default column, so it is the identity on the modelled fields).  The
cell is constructed (and `getUID()` called) before the merge test. -/
def mkNewParent (c : HCol) (uid : Nat) : HCol :=
  match c.parent with
  | some ch => .mk (ch.id ++ "_" ++ toString uid) (some ch.id) ch.parent false [c]
  | none =>
      .mk (c.id ++ "_placeholder_" ++ toString uid) (some (c.id ++ "_placeholder")) none
        true [c]

/-- `latestParentColumn.headers.push(column)`. -/
def HCol.addHeader : HCol → HCol → HCol
  | .mk i o p ph hs, c => .mk i o p ph (hs ++ [c])

/-- In-place mutation of the last parent cell (the JS code pushes into the
`headers` array of `[...parentColumns].reverse()[0]`). -/
def pushLastHeader : List HCol → HCol → List HCol
  | [], _ => []
  | [lp], c => [lp.addHeader c]
  | p :: q :: rest, c => p :: pushLastHeader (q :: rest) c

/-- The `scanColumns.forEach` loop of `makeHeaderGroups` restricted to
parent construction (lines 203-245): when `hasParents`, construct each
column's parent cell and either merge it into the latest parent cell
(equal `originalId`) or append it; the uid counter advances once per
scanned column.  When no scanned column has a parent, `parentColumns`
stays empty and the loop ends after this group. -/
def scanParents (hasParents : Bool) : List HCol → List HCol → Nat → List HCol × Nat
  | [], parents, uid => (parents, uid)
  | c :: rest, parents, uid =>
      if hasParents then
        let newParent := mkNewParent c uid
        let parents' :=
          match parents.getLast? with
          | some lp =>
              if lp.originalId = newParent.originalId then pushLastHeader parents c
              else parents ++ [newParent]
          | none => parents ++ [newParent]
        scanParents hasParents rest parents' (uid + 1)
      else scanParents hasParents rest parents uid

/-- Height of an ancestor chain. -/
def Chain.height : Chain → Nat
  | .mk _ none => 1
  | .mk _ (some q) => 1 + Chain.height q

def HCol.pHeight (c : HCol) : Nat :=
  match c.parent with
  | none => 0
  | some ch => ch.height

def maxPH : List HCol → Nat
  | [] => 0
  | c :: rest => max c.pHeight (maxPH rest)

/-- The `while (scanColumns.length)` loop of `makeHeaderGroups` (lines
191-251), producing groups in push order (leaves first): each iteration
emits the current scan list as one header group (every scanned column is
pushed into `headerGroup.headers`) and promotes the constructed parent
cells to the next scan.  The fuel only bounds the loop: the maximal
parent-chain height strictly decreases across iterations, so
`maxPH scan + 1` iterations reproduce the while loop exactly. -/
def headerLoop : Nat → List HCol → Nat → List (List HCol)
  | 0, _, _ => []
  | _ + 1, [], _ => []
  | fuel + 1, c :: rest, uid =>
      let hasParents := (c :: rest).any fun col => col.parent.isSome
      let pr := scanParents hasParents (c :: rest) [] uid
      (c :: rest) :: headerLoop fuel pr.1 pr.2

/-- `makeHeaderGroups(allColumns, defaultColumn)` of `src/utils.js` (lines
183-254): run the scan loop from the flat leaf columns and reverse the
collected groups, so the outermost group comes first in the returned
sequence.  `defaultColumn` is consumed only by `decorateColumn`, which is
the identity on the modelled fields, so it is not a parameter here. -/
def makeHeaderGroups (allColumns : List HCol) : List HeaderGroup :=
  ((headerLoop (maxPH allColumns + 1) allColumns 0).map fun hs => HeaderGroup.mk hs).reverse

mutual

/-- The number of leaf columns covered by a header cell: an input leaf
column (empty `headers`) covers itself; a constructed cell covers the
leaves of its accumulated `headers`. -/
def leafSpan : HCol → Nat
  | .mk _ _ _ _ [] => 1
  | .mk _ _ _ _ (hh :: tt) => leafSpanSum (hh :: tt)

def leafSpanSum : List HCol → Nat
  | [] => 0
  | c :: rest => leafSpan c + leafSpanSum rest

end

/-- The `originalId` that `mkNewParent` gives the parent cell of a scanned
column: the real parent's id, or the placeholder key derived from the
column's own id. -/
def parentKey (c : HCol) : String :=
  match c.parent with
  | some ch => ch.id
  | none => c.id ++ "_placeholder"

/-- Specification-side run merging: the maximal runs of adjacent scanned
columns sharing one parent key, each run paired with that key. -/
def runsAux (key : String) (run : List HCol) : List HCol → List (String × List HCol)
  | [] => [(key, run)]
  | c :: rest =>
      if parentKey c = key then runsAux key (run ++ [c]) rest
      else (key, run) :: runsAux (parentKey c) [c] rest

def parentRuns : List HCol → List (String × List HCol)
  | [] => []
  | c :: rest => runsAux (parentKey c) [c] rest

theorem leafSpanSum_append (xs ys : List HCol) :
    leafSpanSum (xs ++ ys) = leafSpanSum xs + leafSpanSum ys := by
  induction xs with
  | nil => simp [leafSpanSum]
  | cons c rest ih => rw [List.cons_append, leafSpanSum, leafSpanSum, ih]; omega

theorem leafSpan_addHeader (p c : HCol) (hne : p.headers ≠ []) :
    leafSpan (p.addHeader c) = leafSpan p + leafSpan c := by
  cases p with
  | mk i o pa ph hs =>
      cases hs with
      | nil => exact absurd rfl hne
      | cons hh tt =>
          show leafSpan (.mk i o pa ph ((hh :: tt) ++ [c])) = _
          rw [show leafSpan (HCol.mk i o pa ph ((hh :: tt) ++ [c])) =
            leafSpanSum ((hh :: tt) ++ [c]) from rfl]
          rw [leafSpanSum_append, show leafSpan (HCol.mk i o pa ph (hh :: tt)) =
            leafSpanSum (hh :: tt) from rfl]
          simp [leafSpanSum]

theorem addHeader_headers_ne (p c : HCol) : (p.addHeader c).headers ≠ [] := by
  cases p with
  | mk i o pa ph hs => simp [HCol.addHeader, HCol.headers]

theorem addHeader_originalId (p c : HCol) : (p.addHeader c).originalId = p.originalId := by
  cases p with
  | mk i o pa ph hs => rfl

theorem mkNewParent_headers (c : HCol) (uid : Nat) : (mkNewParent c uid).headers = [c] := by
  cases hp : c.parent <;> simp [mkNewParent, hp, HCol.headers]

theorem mkNewParent_originalId (c : HCol) (uid : Nat) :
    (mkNewParent c uid).originalId = some (parentKey c) := by
  cases hp : c.parent <;> simp [mkNewParent, parentKey, hp, HCol.originalId]

theorem mkNewParent_span (c : HCol) (uid : Nat) : leafSpan (mkNewParent c uid) = leafSpan c := by
  cases hp : c.parent with
  | none =>
      simp only [mkNewParent, hp]
      show leafSpan c + 0 = leafSpan c
      omega
  | some ch =>
      simp only [mkNewParent, hp]
      show leafSpan c + 0 = leafSpan c
      omega

theorem pushLastHeader_span (c : HCol) :
    ∀ parents : List HCol, parents ≠ [] → (∀ p ∈ parents, p.headers ≠ []) →
      leafSpanSum (pushLastHeader parents c) = leafSpanSum parents + leafSpan c
  | [], hne, _ => absurd rfl hne
  | [lp], _, hh => by
      rw [pushLastHeader, leafSpanSum, leafSpanSum, leafSpanSum, leafSpanSum,
        leafSpan_addHeader lp c (hh lp (List.mem_singleton.mpr rfl))]
      omega
  | p :: q :: rest, _, hh => by
      rw [pushLastHeader, leafSpanSum, leafSpanSum,
        pushLastHeader_span c (q :: rest) (List.cons_ne_nil q rest)
          (fun x hx => hh x (List.mem_cons_of_mem p hx))]
      omega

theorem pushLastHeader_headers_ne (c : HCol) :
    ∀ parents : List HCol, (∀ p ∈ parents, p.headers ≠ []) →
      ∀ p ∈ pushLastHeader parents c, p.headers ≠ []
  | [], _, p, hp => absurd hp (List.not_mem_nil p)
  | [lp], hh, p, hp => by
      rw [pushLastHeader] at hp
      rcases List.mem_singleton.mp hp with rfl
      exact addHeader_headers_ne lp c
  | a :: q :: rest, hh, p, hp => by
      rw [pushLastHeader] at hp
      rcases List.mem_cons.mp hp with rfl | hp'
      · exact hh p (List.mem_cons_self p _)
      · exact pushLastHeader_headers_ne c (q :: rest)
          (fun x hx => hh x (List.mem_cons_of_mem a hx)) p hp'

theorem scanParents_span :
    ∀ (scan parents : List HCol) (uid : Nat),
      (∀ p ∈ parents, p.headers ≠ []) →
      leafSpanSum (scanParents true scan parents uid).1 =
        leafSpanSum parents + leafSpanSum scan ∧
      ∀ p ∈ (scanParents true scan parents uid).1, p.headers ≠ []
  | [], parents, uid, hh => by
      rw [scanParents]
      refine ⟨?_, hh⟩
      show leafSpanSum parents = leafSpanSum parents + 0
      omega
  | c :: rest, parents, uid, hh => by
      have hstep : scanParents true (c :: rest) parents uid =
          scanParents true rest
            (match parents.getLast? with
              | some lp =>
                  if lp.originalId = (mkNewParent c uid).originalId then
                    pushLastHeader parents c
                  else parents ++ [mkNewParent c uid]
              | none => parents ++ [mkNewParent c uid]) (uid + 1) := rfl
      rw [hstep]
      cases hlast : parents.getLast? with
      | none =>
          have hnil : parents = [] := by
            cases parents with
            | nil => rfl
            | cons x xs => simp [List.getLast?] at hlast
          subst hnil
          dsimp only
          have hres := scanParents_span rest ([] ++ [mkNewParent c uid]) (uid + 1)
            (by intro p hp
                rcases List.mem_singleton.mp (by simpa using hp) with rfl
                rw [mkNewParent_headers]
                exact List.cons_ne_nil c [])
          refine ⟨?_, hres.2⟩
          rw [hres.1, List.nil_append]
          show leafSpan (mkNewParent c uid) + 0 + leafSpanSum rest =
            0 + (leafSpan c + leafSpanSum rest)
          rw [mkNewParent_span]
          omega
      | some lp =>
          have hpne : parents ≠ [] := by
            intro hcon
            rw [hcon] at hlast
            cases hlast
          dsimp only
          by_cases hmerge : lp.originalId = (mkNewParent c uid).originalId
          · rw [if_pos hmerge]
            have hres := scanParents_span rest (pushLastHeader parents c) (uid + 1)
              (pushLastHeader_headers_ne c parents hh)
            refine ⟨?_, hres.2⟩
            rw [hres.1, pushLastHeader_span c parents hpne hh]
            show leafSpanSum parents + leafSpan c + leafSpanSum rest =
              leafSpanSum parents + (leafSpan c + leafSpanSum rest)
            omega
          · rw [if_neg hmerge]
            have hres := scanParents_span rest (parents ++ [mkNewParent c uid]) (uid + 1)
              (by intro p hp
                  rcases List.mem_append.mp hp with h1 | h2
                  · exact hh p h1
                  · rcases List.mem_singleton.mp h2 with rfl
                    rw [mkNewParent_headers]
                    exact List.cons_ne_nil c [])
            refine ⟨?_, hres.2⟩
            rw [hres.1, leafSpanSum_append]
            show leafSpanSum parents + (leafSpan (mkNewParent c uid) + 0) + leafSpanSum rest =
              leafSpanSum parents + (leafSpan c + leafSpanSum rest)
            rw [mkNewParent_span]
            omega

theorem scanParents_false : ∀ (scan parents : List HCol) (uid : Nat),
    scanParents false scan parents uid = (parents, uid)
  | [], _, _ => rfl
  | c :: rest, parents, uid => by
      have hstep : scanParents false (c :: rest) parents uid =
          scanParents false rest parents uid := rfl
      rw [hstep, scanParents_false rest parents uid]

theorem headerLoop_nil (fuel uid : Nat) : headerLoop fuel [] uid = [] := by
  cases fuel <;> rfl

theorem headerLoop_span : ∀ (fuel : Nat) (scan : List HCol) (uid : Nat),
    ∀ g ∈ headerLoop fuel scan uid, leafSpanSum g = leafSpanSum scan
  | 0, _, _, g, hg => absurd hg (List.not_mem_nil g)
  | _ + 1, [], _, g, hg => absurd hg (List.not_mem_nil g)
  | fuel + 1, c :: rest, uid, g, hg => by
      rw [headerLoop] at hg
      rcases List.mem_cons.mp hg with rfl | htail
      · rfl
      · cases hasP : (c :: rest).any fun col => col.parent.isSome with
        | false =>
            rw [hasP, scanParents_false] at htail
            rw [headerLoop_nil] at htail
            exact absurd htail (List.not_mem_nil g)
        | true =>
            rw [hasP] at htail
            have hrec := headerLoop_span fuel
              (scanParents true (c :: rest) [] uid).1
              (scanParents true (c :: rest) [] uid).2 g htail
            have hsp := (scanParents_span (c :: rest) [] uid
              (by intro p hp; exact absurd hp (List.not_mem_nil p))).1
            rw [hrec, hsp]
            show 0 + leafSpanSum (c :: rest) = leafSpanSum (c :: rest)
            omega

theorem leafSpanSum_of_leaves : ∀ cols : List HCol, (∀ c ∈ cols, c.headers = []) →
    leafSpanSum cols = cols.length
  | [], _ => rfl
  | c :: rest, hl => by
      have hc : c.headers = [] := hl c (List.mem_cons_self c rest)
      cases c with
      | mk i o p ph hs =>
          rw [show HCol.headers (.mk i o p ph hs) = hs from rfl] at hc
          subst hc
          show 1 + leafSpanSum rest = rest.length + 1
          rw [leafSpanSum_of_leaves rest (fun x hx => hl x (List.mem_cons_of_mem _ hx))]
          omega

/-- C3: header-group rectangularity — for every flat leaf-column list
(arbitrary parent chains, so arbitrary finite nesting and heterogeneous
depths), every header group produced by `makeHeaderGroups` has headers
whose leaf spans (placeholder cells included) sum to the number of leaf
columns. -/
theorem makeHeaderGroups_rectangular (cols : List HCol)
    (hleaf : ∀ c ∈ cols, c.headers = []) :
    ∀ g ∈ makeHeaderGroups cols, leafSpanSum g.headers = cols.length := by
  intro g hg
  rw [makeHeaderGroups, List.mem_reverse] at hg
  obtain ⟨hs, hhs, rfl⟩ := List.mem_map.mp hg
  have hspan := headerLoop_span (maxPH cols + 1) cols 0 hs hhs
  rw [show (HeaderGroup.mk hs).headers = hs from rfl, hspan, leafSpanSum_of_leaves cols hleaf]

/-- The concrete three-leaf configuration of the header-group witnesses:
two leaves sharing the parent `"g"` and a parentless leaf. -/
def hgA : HCol := .mk "a" none (some (.mk "g" none)) false []

def hgB : HCol := .mk "b" none (some (.mk "g" none)) false []

def hgC : HCol := .mk "c" none none false []

theorem makeHeaderGroups_rectangular_witness :
    leafSpanSum (HeaderGroup.mk [hgA, hgB, hgC]).headers = [hgA, hgB, hgC].length :=
  makeHeaderGroups_rectangular [hgA, hgB, hgC]
    (by
      intro c hc
      rcases List.mem_cons.mp hc with rfl | hc
      · rfl
      rcases List.mem_cons.mp hc with rfl | hc
      · rfl
      rcases List.mem_cons.mp hc with rfl | hc
      · rfl
      · exact absurd hc (List.not_mem_nil c))
    (HeaderGroup.mk [hgA, hgB, hgC]) (List.Mem.tail _ (List.Mem.head _))

/-- C7: `makeHeaderGroups` builds the header groups from the leaf columns
upward and reverses the collected list before returning, so in the
returned top-down sequence the outermost constructed group comes first and
the group consisting of exactly the input leaf columns is the last
element. -/
theorem makeHeaderGroups_leaf_group_last (cols : List HCol) (hne : cols ≠ []) :
    (makeHeaderGroups cols).getLast? = some (HeaderGroup.mk cols) := by
  obtain ⟨c, rest, rfl⟩ := List.exists_cons_of_ne_nil hne
  rw [makeHeaderGroups, List.getLast?_reverse, headerLoop]
  rfl

theorem makeHeaderGroups_leaf_group_last_witness :
    (makeHeaderGroups [hgA, hgB, hgC]).getLast? = some (HeaderGroup.mk [hgA, hgB, hgC]) :=
  makeHeaderGroups_leaf_group_last [hgA, hgB, hgC] (List.cons_ne_nil hgA [hgB, hgC])

theorem addHeader_headers (p c : HCol) : (p.addHeader c).headers = p.headers ++ [c] := by
  cases p with
  | mk i o pa ph hs => rfl

theorem runsAux_ne_nil (key : String) (run : List HCol) :
    ∀ scan : List HCol, runsAux key run scan ≠ []
  | [] => by rw [runsAux]; exact List.cons_ne_nil _ _
  | c :: rest => by
      rw [runsAux]
      by_cases hk : parentKey c = key
      · rw [if_pos hk]
        exact runsAux_ne_nil key (run ++ [c]) rest
      · rw [if_neg hk]
        exact List.cons_ne_nil _ _

theorem pushLastHeader_append : ∀ (pre : List HCol) (lp c : HCol),
    pushLastHeader (pre ++ [lp]) c = pre ++ [lp.addHeader c]
  | [], lp, c => rfl
  | p :: pre', lp, c => by
      cases pre' with
      | nil => rfl
      | cons q pre'' =>
          show p :: pushLastHeader ((q :: pre'') ++ [lp]) c =
            p :: ((q :: pre'') ++ [lp.addHeader c])
          rw [pushLastHeader_append (q :: pre'') lp c]

theorem scanParents_runs :
    ∀ (scan pre : List HCol) (lp : HCol) (k : String) (uid : Nat),
      lp.originalId = some k →
      ∃ cells, (scanParents true scan (pre ++ [lp]) uid).1 = pre ++ cells ∧
        List.Forall₂ (fun cell kr => cell.originalId = some kr.1 ∧ cell.headers = kr.2)
          cells (runsAux k lp.headers scan)
  | [], pre, lp, k, uid, hk => by
      rw [scanParents, runsAux]
      exact ⟨[lp], rfl, .cons ⟨hk, rfl⟩ .nil⟩
  | c :: rest, pre, lp, k, uid, hk => by
      have hstep : scanParents true (c :: rest) (pre ++ [lp]) uid =
          scanParents true rest
            (match (pre ++ [lp]).getLast? with
              | some lp' =>
                  if lp'.originalId = (mkNewParent c uid).originalId then
                    pushLastHeader (pre ++ [lp]) c
                  else (pre ++ [lp]) ++ [mkNewParent c uid]
              | none => (pre ++ [lp]) ++ [mkNewParent c uid]) (uid + 1) := rfl
      rw [hstep, List.getLast?_concat]
      dsimp only
      rw [runsAux]
      by_cases hkc : parentKey c = k
      · have hcond : lp.originalId = (mkNewParent c uid).originalId := by
          rw [hk, mkNewParent_originalId, hkc]
        rw [if_pos hcond, if_pos hkc, pushLastHeader_append]
        obtain ⟨cells, h1, h2⟩ := scanParents_runs rest pre (lp.addHeader c) k (uid + 1)
          (by rw [addHeader_originalId, hk])
        refine ⟨cells, h1, ?_⟩
        rwa [addHeader_headers] at h2
      · have hcond : ¬lp.originalId = (mkNewParent c uid).originalId := by
          rw [hk, mkNewParent_originalId]
          intro hcc
          injection hcc with hcc'
          exact hkc hcc'.symm
        rw [if_neg hcond, if_neg hkc]
        obtain ⟨cells, h1, h2⟩ := scanParents_runs rest (pre ++ [lp]) (mkNewParent c uid)
          (parentKey c) (uid + 1) (mkNewParent_originalId c uid)
        refine ⟨lp :: cells, ?_, ?_⟩
        · rw [List.append_cons pre lp cells]
          exact h1
        · rw [mkNewParent_headers] at h2
          exact .cons ⟨hk, rfl⟩ h2

theorem scanParents_parentRuns (scan : List HCol) (uid : Nat) (hne : scan ≠ []) :
    List.Forall₂ (fun cell kr => cell.originalId = some kr.1 ∧ cell.headers = kr.2)
      (scanParents true scan [] uid).1 (parentRuns scan) := by
  obtain ⟨c, rest, rfl⟩ := List.exists_cons_of_ne_nil hne
  have hstep : scanParents true (c :: rest) [] uid =
      scanParents true rest ([] ++ [mkNewParent c uid]) (uid + 1) := rfl
  rw [hstep, parentRuns]
  obtain ⟨cells, h1, h2⟩ := scanParents_runs rest [] (mkNewParent c uid) (parentKey c)
    (uid + 1) (mkNewParent_originalId c uid)
  rw [h1, List.nil_append]
  rwa [mkNewParent_headers] at h2

theorem Chain.height_pos (ch : Chain) : 1 ≤ ch.height := by
  cases ch with
  | mk i p => cases p <;> simp [Chain.height]

theorem maxPH_pos_of_any (cols : List HCol)
    (hp : (cols.any fun c => c.parent.isSome) = true) : 1 ≤ maxPH cols := by
  induction cols with
  | nil => cases hp
  | cons c rest ih =>
      rw [List.any_cons, Bool.or_eq_true] at hp
      rw [maxPH]
      rcases hp with h1 | h2
      · cases hpar : c.parent with
        | none => rw [hpar] at h1; cases h1
        | some ch =>
            have := Chain.height_pos ch
            have hph : c.pHeight = ch.height := by rw [HCol.pHeight, hpar]
            omega
      · have := ih h2
        omega

/-- C8: parent merging — when the input leaf columns contain parents, the
next header group above the leaves (the second-to-last group of the
returned top-down sequence) has exactly one cell per maximal run of
adjacent leaves sharing the same original parent id, that cell's `headers`
being the whole run in order; non-adjacent or differing parents get
separate cells.  `parentRuns` is the specification-side run merging. -/
theorem makeHeaderGroups_merges_adjacent_parents (cols : List HCol) (hne : cols ≠ [])
    (hp : (cols.any fun c => c.parent.isSome) = true) :
    ∃ ps rest, makeHeaderGroups cols = rest ++ [HeaderGroup.mk ps, HeaderGroup.mk cols] ∧
      List.Forall₂ (fun cell kr => cell.originalId = some kr.1 ∧ cell.headers = kr.2)
        ps (parentRuns cols) := by
  obtain ⟨c, crest, rfl⟩ := List.exists_cons_of_ne_nil hne
  have hf2 := scanParents_parentRuns (c :: crest) 0 (List.cons_ne_nil c crest)
  have hpsne : (scanParents true (c :: crest) [] 0).1 ≠ [] := by
    intro hcon
    rw [hcon] at hf2
    have hruns : parentRuns (c :: crest) = [] := List.forall₂_nil_left_iff.mp hf2
    rw [parentRuns] at hruns
    exact runsAux_ne_nil (parentKey c) [c] crest hruns
  obtain ⟨m, hm⟩ : ∃ m, maxPH (c :: crest) = m + 1 := by
    have := maxPH_pos_of_any (c :: crest) hp
    exact ⟨maxPH (c :: crest) - 1, by omega⟩
  obtain ⟨p0, ps', hps'⟩ := List.exists_cons_of_ne_nil hpsne
  have h1 : headerLoop (maxPH (c :: crest) + 1) (c :: crest) 0 =
      (c :: crest) :: headerLoop (maxPH (c :: crest))
        (scanParents true (c :: crest) [] 0).1 (scanParents true (c :: crest) [] 0).2 := by
    rw [headerLoop, hp]
  have h2 : ∃ tail2, headerLoop (maxPH (c :: crest))
      (scanParents true (c :: crest) [] 0).1 (scanParents true (c :: crest) [] 0).2 =
      (scanParents true (c :: crest) [] 0).1 :: tail2 := by
    rw [hm, hps']
    exact ⟨_, by rw [headerLoop]⟩
  obtain ⟨tail2, h2⟩ := h2
  refine ⟨(scanParents true (c :: crest) [] 0).1, (tail2.map HeaderGroup.mk).reverse, ?_, hf2⟩
  rw [makeHeaderGroups, h1, h2]
  simp [List.reverse_cons, List.append_assoc]

theorem makeHeaderGroups_merges_adjacent_parents_witness :
    ∃ ps rest, makeHeaderGroups [hgA, hgB, hgC] =
        rest ++ [HeaderGroup.mk ps, HeaderGroup.mk [hgA, hgB, hgC]] ∧
      List.Forall₂ (fun cell kr => cell.originalId = some kr.1 ∧ cell.headers = kr.2)
        ps (parentRuns [hgA, hgB, hgC]) :=
  makeHeaderGroups_merges_adjacent_parents [hgA, hgB, hgC]
    (List.cons_ne_nil hgA [hgB, hgC]) rfl

/-- A raw data item together with its nested sub-row arrays.  The callers
of `accessRowsForColumn` extract sub-rows structurally (the default
`getSubRows` is `row => row.subRows`), so the raw data is a finite tree;
a non-structural extractor could not terminate in JS either. -/
inductive RawRow where
  | mk (val : JSVal) (subs : Option (List RawRow))

def RawRow.val : RawRow → JSVal
  | .mk v _ => v

def RawRow.subs : RawRow → Option (List RawRow)
  | .mk _ s => s

/-- A materialized cell (the prepare step that populates these descriptors
lives outside `src/utils.js`; a cell is modelled by its value). -/
structure Cell where
  value : JSVal

/-- The `cells` array of a row.  `accessRowsForColumn` creates it as the
dummy `[{}]` whose `map`, `filter` and `forEach` methods and whose first
element's `getCellProps` are overridden with `unpreparedAccessWarning`
(lines 120-128); that unprepared state is the first constructor.
`prepared` is modelled from the spec: a later prepare step outside the
materializer replaces the dummy with real per-column cell descriptors. -/
inductive Cells where
  | unprepared
  | prepared (cells : List Cell)

/-- `unpreparedAccessWarning` of `src/utils.js` (lines 376-380): always
throws. -/
def unpreparedAccessWarning {α : Type} : Except String α :=
  .error
    "React-Table: You have not called prepareRow(row) one or more rows you are attempting to render."

/-- Calling `row.cells.map(f)`. -/
def Cells.mapCells {α : Type} : Cells → (Cell → α) → Except String (List α)
  | .unprepared, _ => unpreparedAccessWarning
  | .prepared cs, f => .ok (cs.map f)

/-- Calling `row.cells.filter(f)`. -/
def Cells.filterCells : Cells → (Cell → Bool) → Except String (List Cell)
  | .unprepared, _ => unpreparedAccessWarning
  | .prepared cs, f => .ok (cs.filter f)

/-- Calling `row.cells.forEach(f)`. -/
def Cells.forEachCells : Cells → (Cell → Unit) → Except String Unit
  | .unprepared, _ => unpreparedAccessWarning
  | .prepared _, _ => .ok ()

/-- Calling `row.cells[0].getCellProps()` (on a prepared row the prop
getter is supplied by the rendering layer, outside this core; it returns
an opaque props object). -/
def Cells.getCellPropsAtZero : Cells → Except String JSVal
  | .unprepared => unpreparedAccessWarning
  | .prepared _ => .ok (.obj [])

/-- A materialized row, an arena record: `subRows` holds the ids of the
child rows (non-owning back-references into `rowsById`), exactly the
explicit-arena reading of the JS object graph. -/
structure Row where
  id : String
  original : RawRow
  index : Nat
  depth : Nat
  cells : Cells
  values : List (String × JSVal)
  originalSubRows : Option (List RawRow)
  subRows : Option (List String)

/-- A materialized leaf column as `accessRowsForColumn` consumes it: its
resolved id and optional accessor `(originalRow, rowIndex, row) => value`. -/
structure Column where
  id : String
  accessor : Option (RawRow → Nat → Row → JSVal)

/-- One `accessValueHooks` entry: `(value, { row, column, instance }) =>
value`.  The column is the fixed column of the invocation and the
instance is opaque, so a hook reads the current value and the row. -/
def Hook : Type := JSVal → Row → JSVal

/-- Modelled from the spec: `reduceHooks` lives in `publicUtils.js`, not
under `src/`; section 4.4 of the spec: run every registered value-transform
hook in registration order, each hook permitted to overwrite the value
seen by the next (the `allowUndefined = true` call site skips the
development-mode undefined check). -/
def reduceHooks (hooks : List Hook) (initial : JSVal) (row : Row) : JSVal :=
  hooks.foldl (fun prev h => h prev row) initial

/-- The shared state `accessRowsForColumn` mutates: the `rows` array of
top-level row ids, the pre-order `flatRows` id list, and the `rowsById`
arena (insertion-ordered association list, keys unique by construction). -/
structure TableState where
  rows : List String
  flatRows : List String
  rowsById : List (String × Row)

def emptyTableState : TableState :=
  { rows := [], flatRows := [], rowsById := [] }

def lookupRow (st : TableState) (id : String) : Option Row :=
  ((st.rowsById.find? fun p => p.1 == id).map Prod.snd)

/-- In-place mutation of the row object stored under `id` (object
identity: every reference sees the update). -/
def modifyRow (st : TableState) (id : String) (f : Row → Row) : TableState :=
  { st with rowsById := st.rowsById.map fun p => if p.1 = id then (id, f p.2) else p }

/-- JS object field write `values[k] = v`: overwrite in place or append
(insertion order preserved). -/
def insertVal : List (String × JSVal) → String → JSVal → List (String × JSVal)
  | [], k, v => [(k, v)]
  | (k', v') :: rest, k, v =>
      if k' = k then (k, v) :: rest else (k', v') :: insertVal rest k v

/-- JS object field read `values[k]`, `undefined` when absent. -/
def lookupValD (values : List (String × JSVal)) (k : String) : JSVal :=
  ((values.find? fun p => p.1 == k).map Prod.snd).getD (.undef)

/-- Errors of the row-materializer embedding: `gas` models the stack
overflow JS reaches when the re-entrant walk does not terminate (an
adversarial `getRowId`); `typeErr` models the JS `TypeError` thrown by
`parentRows.push` when a fresh row is created during a cache-hit re-walk
(which passes no accumulator array) or by `forEach` on an absent
`originalSubRows`. -/
inductive AErr where
  | gas
  | typeErr

/-- Lines 159-174 of `accessRow`: if the column has an accessor assign
`row.values[column.id]` from it, then run `reduceHooks` over the current
value and store the result (both writes through the arena, mutating the
row object in place). -/
def assignValue (col : Column) (hooks : List Hook) (r : RawRow) (rowIndex : Nat)
    (st : TableState) (id : String) : TableState :=
  let st1 :=
    match col.accessor with
    | some a => modifyRow st id fun row =>
        { row with values := insertVal row.values col.id (a r rowIndex row) }
    | none => st
  modifyRow st1 id fun row =>
    { row with values := insertVal row.values col.id (reduceHooks hooks (lookupValD row.values col.id) row) }

/-- The `forEach` loops over raw sub-row arrays: run `step` on each item
with its relative index, collecting the ids of the rows that `step` pushed
(the fresh ones), in order. -/
def foldKids (step : RawRow → Nat → TableState → Except AErr (TableState × Option String)) :
    List RawRow → Nat → TableState → Except AErr (TableState × List String)
  | [], _, st => .ok (st, [])
  | d :: rest, i, st =>
      match step d i st with
      | .error e => .error e
      | .ok (st1, p) =>
          match foldKids step rest (i + 1) st1 with
          | .error e => .error e
          | .ok (st2, ps) =>
              .ok (st2, (match p with | some pid => [pid] | none => []) ++ ps)

/-- `accessRow(originalRow, rowIndex, depth, parent, parentRows)` of
`accessRowsForColumn` (`src/utils.js` lines 105-175), arena-passing.

The returned `Option String` is the id the call pushed into its
`parentRows` accumulator (the row itself when freshly created, nothing on
a cache hit); `hasAcc` records whether an accumulator was passed — the
cache-hit re-walk passes none, and a fresh creation without one is the JS
`TypeError` of `undefined.push`.  `getRowId(row, relativeIndex, parent)`
receives the parent row's id (its ancestry), per the spec's row-identity
contract.  The accumulator pushes are modelled by returning the pushed id
to the call site, which is unobservable because nothing reads the arrays
during the pass.  Fuel only bounds the re-entrant recursion (the cache-hit
branch re-walks the STORED `originalSubRows`, which an adversarial
`getRowId` can make non-terminating in JS); any fuel at least the total
node count of the data reproduces a terminating JS run. -/
def accessRow (col : Column) (hooks : List Hook)
    (getRowId : RawRow → Nat → Option String → String) :
    Nat → RawRow → Nat → Nat → Option String → Bool → TableState →
      Except AErr (TableState × Option String)
  | 0, _, _, _, _, _, _ => .error .gas
  | fuel + 1, r, rowIndex, depth, parentId, hasAcc, st0 =>
      let id := getRowId r rowIndex parentId
      match lookupRow st0 id with
      | none =>
          if hasAcc then
            let row0 : Row :=
              { id := id, original := r, index := rowIndex, depth := depth,
                cells := Cells.unprepared, values := [],
                originalSubRows := none, subRows := none }
            let st1 : TableState :=
              { st0 with flatRows := st0.flatRows ++ [id],
                         rowsById := st0.rowsById ++ [(id, row0)] }
            let osubs := r.subs
            let st2 := modifyRow st1 id fun row => { row with originalSubRows := osubs }
            match osubs with
            | some ds =>
                match foldKids
                  (fun d i st => accessRow col hooks getRowId fuel d i (depth + 1) (some id) true st)
                  ds 0 st2 with
                | .error e => .error e
                | .ok (st3, subIds) =>
                    let st4 := modifyRow st3 id fun row => { row with subRows := some subIds }
                    .ok (assignValue col hooks r rowIndex st4 id, some id)
            | none => .ok (assignValue col hooks r rowIndex st2 id, some id)
          else .error .typeErr
      | some row =>
          match row.subRows with
          | some _ =>
              match row.originalSubRows with
              | some ds =>
                  match foldKids
                    (fun d i st => accessRow col hooks getRowId fuel d i (depth + 1) (some id) false st)
                    ds 0 st0 with
                  | .error e => .error e
                  | .ok (st1, _) => .ok (assignValue col hooks r rowIndex st1 id, none)
              | none => .error .typeErr
          | none => .ok (assignValue col hooks r rowIndex st0 id, none)

/-- `accessRowsForColumn({ data, rows, flatRows, rowsById, column, ... })`
of `src/utils.js` (lines 91-180): walk the data array, top-level rows
pushed into the `rows` array. -/
def accessRowsForColumn (fuel : Nat) (col : Column) (hooks : List Hook)
    (getRowId : RawRow → Nat → Option String → String) (data : List RawRow)
    (st : TableState) : Except AErr TableState :=
  match foldKids (fun d i s => accessRow col hooks getRowId fuel d i 0 none true s)
      data 0 st with
  | .error e => .error e
  | .ok (st1, ps) => .ok { st1 with rows := st1.rows ++ ps }

/-- A row object was not replaced between two states: either untouched, or
only its `values[cid]` entry was (re)assigned. -/
def ValuesExtends (cid : String) (r1 r2 : Row) : Prop :=
  r2 = r1 ∨ ∃ v, r2 = { r1 with values := insertVal r1.values cid v }

/-- The re-entry frame: the `rows` and `flatRows` arrays are untouched,
and the arena holds exactly the same row objects (same ids, same order),
each changed at most by an assignment of `values[cid]`. -/
def FrameRel (cid : String) (st st' : TableState) : Prop :=
  st'.rows = st.rows ∧ st'.flatRows = st.flatRows ∧
  List.Forall₂ (fun p q => p.1 = q.1 ∧ ValuesExtends cid p.2 q.2) st.rowsById st'.rowsById

theorem insertVal_insertVal (l : List (String × JSVal)) (k : String) (v v' : JSVal) :
    insertVal (insertVal l k v) k v' = insertVal l k v' := by
  induction l with
  | nil => simp [insertVal]
  | cons p rest ih =>
      by_cases hk : p.1 = k
      · obtain ⟨p1, p2⟩ := p
        simp only at hk
        subst hk
        simp [insertVal]
      · obtain ⟨p1, p2⟩ := p
        simp only at hk
        simp [insertVal, hk, ih]

theorem valuesExtends_refl (cid : String) (r : Row) : ValuesExtends cid r r :=
  Or.inl rfl

theorem valuesExtends_trans {cid : String} {r1 r2 r3 : Row}
    (h12 : ValuesExtends cid r1 r2) (h23 : ValuesExtends cid r2 r3) :
    ValuesExtends cid r1 r3 := by
  rcases h12 with rfl | ⟨v, rfl⟩
  · exact h23
  · rcases h23 with rfl | ⟨v', h3⟩
    · exact Or.inr ⟨v, rfl⟩
    · refine Or.inr ⟨v', ?_⟩
      rw [h3]
      cases r1
      simp [insertVal_insertVal]

theorem frameRel_refl (cid : String) (st : TableState) : FrameRel cid st st :=
  ⟨rfl, rfl, List.forall₂_same.mpr fun p _ => ⟨rfl, valuesExtends_refl cid p.2⟩⟩

theorem forall₂_keys_trans {cid : String} :
    ∀ {l1 l2 l3 : List (String × Row)},
      List.Forall₂ (fun p q => p.1 = q.1 ∧ ValuesExtends cid p.2 q.2) l1 l2 →
      List.Forall₂ (fun p q => p.1 = q.1 ∧ ValuesExtends cid p.2 q.2) l2 l3 →
      List.Forall₂ (fun p q => p.1 = q.1 ∧ ValuesExtends cid p.2 q.2) l1 l3 := by
  intro l1 l2 l3 h12 h23
  induction h12 generalizing l3 with
  | nil => cases h23; exact .nil
  | @cons a b as bs hab h ih =>
      cases h23 with
      | cons hbc h' => exact .cons ⟨hab.1.trans hbc.1, valuesExtends_trans hab.2 hbc.2⟩ (ih h')

theorem frameRel_trans {cid : String} {a b c : TableState}
    (h1 : FrameRel cid a b) (h2 : FrameRel cid b c) : FrameRel cid a c :=
  ⟨h2.1.trans h1.1, h2.2.1.trans h1.2.1, forall₂_keys_trans h1.2.2 h2.2.2⟩

theorem find?_assoc_map_modify_ne {β : Type} (l : List (String × β)) (a b : String)
    (f : β → β) (hne : b ≠ a) :
    ((l.map fun p => if p.1 = a then (a, f p.2) else p).find? fun p => p.1 == b) =
      l.find? fun p => p.1 == b := by
  induction l with
  | nil => rfl
  | cons p rest ih =>
      simp only [List.map_cons]
      by_cases hpa : p.1 = a
      · rw [if_pos hpa]
        rw [List.find?_cons_of_neg _ (by simpa using Ne.symm hne),
            List.find?_cons_of_neg _ (by simp only [beq_iff_eq, hpa]; exact Ne.symm hne)]
        exact ih
      · rw [if_neg hpa]
        by_cases hpb : p.1 = b
        · rw [List.find?_cons_of_pos _ (by simpa using hpb),
              List.find?_cons_of_pos _ (by simpa using hpb)]
        · rw [List.find?_cons_of_neg _ (by simpa using hpb),
              List.find?_cons_of_neg _ (by simpa using hpb)]
          exact ih

theorem find?_assoc_map_modify_self {β : Type} (l : List (String × β)) (a : String)
    (f : β → β) :
    ((l.map fun p => if p.1 = a then (a, f p.2) else p).find? fun p => p.1 == a) =
      (l.find? fun p => p.1 == a).map fun p => (a, f p.2) := by
  induction l with
  | nil => rfl
  | cons p rest ih =>
      simp only [List.map_cons]
      by_cases hpa : p.1 = a
      · rw [if_pos hpa]
        rw [List.find?_cons_of_pos _ (by simp), List.find?_cons_of_pos _ (by simpa using hpa)]
        rfl
      · rw [if_neg hpa]
        rw [List.find?_cons_of_neg _ (by simpa using hpa),
            List.find?_cons_of_neg _ (by simpa using hpa)]
        exact ih

theorem lookupRow_modifyRow_ne (st : TableState) (a b : String) (f : Row → Row)
    (hne : b ≠ a) : lookupRow (modifyRow st a f) b = lookupRow st b := by
  simp only [lookupRow, modifyRow]
  rw [find?_assoc_map_modify_ne st.rowsById a b f hne]

theorem lookupRow_modifyRow_self (st : TableState) (a : String) (f : Row → Row) :
    lookupRow (modifyRow st a f) a = (lookupRow st a).map f := by
  simp only [lookupRow, modifyRow]
  rw [find?_assoc_map_modify_self st.rowsById a f]
  cases st.rowsById.find? fun p => p.1 == a <;> rfl

/-- Updating one row object in place, only extending its `values[cid]`,
is a frame step. -/
theorem modifyRow_frame (cid : String) (st : TableState) (a : String) (f : Row → Row)
    (hf : ∀ row, ValuesExtends cid row (f row)) :
    FrameRel cid st (modifyRow st a f) := by
  refine ⟨rfl, rfl, ?_⟩
  simp only [modifyRow]
  induction st.rowsById with
  | nil => exact .nil
  | cons p rest ih =>
      simp only [List.map_cons]
      by_cases hpa : p.1 = a
      · rw [if_pos hpa]
        exact .cons ⟨by simpa using hpa, hf p.2⟩ ih
      · rw [if_neg hpa]
        exact .cons ⟨rfl, valuesExtends_refl cid p.2⟩ ih

theorem assignValue_frame (col : Column) (hooks : List Hook) (r : RawRow) (i : Nat)
    (st : TableState) (id : String) :
    FrameRel col.id st (assignValue col hooks r i st id) := by
  unfold assignValue
  cases col.accessor with
  | none =>
      exact modifyRow_frame col.id st id _ fun row => Or.inr ⟨_, rfl⟩
  | some a =>
      dsimp only
      exact frameRel_trans
        (modifyRow_frame col.id st id _ fun row => Or.inr ⟨_, rfl⟩)
        (modifyRow_frame col.id _ id _ fun row => Or.inr ⟨_, rfl⟩)

/-- A row id is allocated in the arena. -/
def present (st : TableState) (id : String) : Bool :=
  (lookupRow st id).isSome

theorem forall₂_find?_isSome {cid : String} :
    ∀ {l l' : List (String × Row)},
      List.Forall₂ (fun p q => p.1 = q.1 ∧ ValuesExtends cid p.2 q.2) l l' →
      ∀ id : String, (l.find? fun p => p.1 == id).isSome =
        (l'.find? fun p => p.1 == id).isSome := by
  intro l l' h
  induction h with
  | nil => intro id; rfl
  | @cons p q ps qs hpq h ih =>
      intro id
      by_cases hpi : p.1 = id
      · rw [List.find?_cons_of_pos _ (by simpa using hpi),
            List.find?_cons_of_pos _ (by simp only [beq_iff_eq, ← hpq.1]; exact hpi)]
        rfl
      · rw [List.find?_cons_of_neg _ (by simpa using hpi),
            List.find?_cons_of_neg _ (by simp only [beq_iff_eq, ← hpq.1]; exact hpi)]
        exact ih id

theorem frameRel_present {cid : String} {st st' : TableState} (h : FrameRel cid st st')
    (id : String) : present st' id = present st id := by
  have hiff := forall₂_find?_isSome h.2.2 id
  simp only [present, lookupRow]
  cases hf : st.rowsById.find? fun p => p.1 == id with
  | some p0 =>
      rw [hf] at hiff
      cases hf' : st'.rowsById.find? fun p => p.1 == id with
      | some q0 => rfl
      | none => rw [hf'] at hiff; cases hiff
  | none =>
      rw [hf] at hiff
      cases hf' : st'.rowsById.find? fun p => p.1 == id with
      | some q0 => rw [hf'] at hiff; cases hiff
      | none => rfl

theorem present_modifyRow (st : TableState) (a : String) (f : Row → Row) (id : String) :
    present (modifyRow st a f) id = present st id := by
  by_cases hia : id = a
  · subst hia
    simp only [present, lookupRow_modifyRow_self]
    cases lookupRow st id <;> rfl
  · simp only [present, lookupRow_modifyRow_ne st a id f hia]

theorem present_assignValue (col : Column) (hooks : List Hook) (r : RawRow) (i : Nat)
    (st : TableState) (id0 id : String) :
    present (assignValue col hooks r i st id0) id = present st id := by
  unfold assignValue
  cases col.accessor with
  | none => exact present_modifyRow _ _ _ _
  | some a =>
      dsimp only
      rw [present_modifyRow, present_modifyRow]

theorem lookupRow_append (st : TableState) (x : String × Row) (id : String) :
    lookupRow { st with rowsById := st.rowsById ++ [x] } id =
      match lookupRow st id with
      | some r => some r
      | none => if x.1 = id then some x.2 else none := by
  simp only [lookupRow, List.find?_append]
  cases hf : st.rowsById.find? fun p => p.1 == id with
  | some p => rfl
  | none =>
      by_cases hxi : x.1 = id
      · rw [List.find?_cons_of_pos _ (by simpa using hxi)]
        simp [hxi]
      · rw [List.find?_cons_of_neg _ (by simpa using hxi)]
        simp [hxi]

theorem present_append_of (st : TableState) (x : String × Row) (id : String)
    (h : present st id = true) :
    present { st with rowsById := st.rowsById ++ [x] } id = true := by
  simp only [present, lookupRow_append]
  simp only [present] at h
  cases hl : lookupRow st id with
  | some r => rfl
  | none => rw [hl] at h; cases h

theorem present_append_self (st : TableState) (id : String) (row : Row) :
    present { st with rowsById := st.rowsById ++ [(id, row)] } id = true := by
  simp only [present, lookupRow_append]
  cases hl : lookupRow st id with
  | some r => rfl
  | none => simp

theorem foldKids_mono
    (step : RawRow → Nat → TableState → Except AErr (TableState × Option String))
    (hstep : ∀ d i st st' p, step d i st = .ok (st', p) →
      ∀ id, present st id = true → present st' id = true) :
    ∀ (ds : List RawRow) (i : Nat) (st st' : TableState) (ps : List String),
      foldKids step ds i st = .ok (st', ps) →
      ∀ id, present st id = true → present st' id = true
  | [], i, st, st', ps, hres => by
      rw [foldKids] at hres
      cases hres
      exact fun id h => h
  | d :: rest, i, st, st', ps, hres => by
      rw [foldKids] at hres
      cases hs : step d i st with
      | error e => rw [hs] at hres; cases hres
      | ok pr =>
          obtain ⟨st1, p⟩ := pr
          rw [hs] at hres
          dsimp only at hres
          cases hf : foldKids step rest (i + 1) st1 with
          | error e => rw [hf] at hres; cases hres
          | ok pr2 =>
              obtain ⟨st2, ps2⟩ := pr2
              rw [hf] at hres
              dsimp only at hres
              cases hres
              intro id h
              exact foldKids_mono step hstep rest (i + 1) st1 _ _ hf id
                (hstep d i st st1 p hs id h)

theorem accessRow_mono (col : Column) (hooks : List Hook)
    (gid : RawRow → Nat → Option String → String) :
    ∀ (fuel : Nat) (r : RawRow) (i depth : Nat) (pid : Option String) (acc : Bool)
      (st st' : TableState) (p : Option String),
      accessRow col hooks gid fuel r i depth pid acc st = .ok (st', p) →
      (∀ id, present st id = true → present st' id = true) ∧
      present st' (gid r i pid) = true := by
  intro fuel
  induction fuel with
  | zero =>
      intro r i depth pid acc st st' p hres
      rw [accessRow] at hres
      cases hres
  | succ fuel ih =>
      intro r i depth pid acc st st' p hres
      rw [accessRow] at hres
      cases hlk : lookupRow st (gid r i pid) with
      | none =>
          rw [hlk] at hres
          dsimp only at hres
          cases hacc : acc with
          | false =>
              rw [hacc] at hres
              simp at hres
          | true =>
              rw [hacc] at hres
              simp only [if_true] at hres
              cases hsubs : r.subs with
              | none =>
                  rw [hsubs] at hres
                  dsimp only at hres
                  simp only [Except.ok.injEq, Prod.mk.injEq] at hres
                  obtain ⟨rfl, rfl⟩ := hres
                  constructor
                  · intro id h
                    rw [present_assignValue, present_modifyRow]
                    exact present_append_of _ _ _ h
                  · rw [present_assignValue, present_modifyRow]
                    exact present_append_self _ _ _
              | some ds =>
                  rw [hsubs] at hres
                  dsimp only at hres
                  split at hres
                  · cases hres
                  · rename_i st3 subIds hfk
                    simp only [Except.ok.injEq, Prod.mk.injEq] at hres
                    obtain ⟨rfl, rfl⟩ := hres
                    have hkmono := foldKids_mono _
                      (fun d i2 s s' p2 h2 => (ih d i2 (depth + 1) (some (gid r i pid))
                        true s s' p2 h2).1) ds 0 _ _ _ hfk
                    constructor
                    · intro id h
                      rw [present_assignValue, present_modifyRow]
                      refine hkmono id ?_
                      rw [present_modifyRow]
                      exact present_append_of _ _ _ h
                    · rw [present_assignValue, present_modifyRow]
                      refine hkmono _ ?_
                      rw [present_modifyRow]
                      exact present_append_self _ _ _
      | some row =>
          rw [hlk] at hres
          dsimp only at hres
          have hpres0 : present st (gid r i pid) = true := by
            simp [present, hlk]
          cases hsr : row.subRows with
          | none =>
              rw [hsr] at hres
              dsimp only at hres
              simp only [Except.ok.injEq, Prod.mk.injEq] at hres
              obtain ⟨rfl, rfl⟩ := hres
              constructor
              · intro id h
                rw [present_assignValue]
                exact h
              · rw [present_assignValue]
                exact hpres0
          | some subIds =>
              rw [hsr] at hres
              dsimp only at hres
              cases hosr : row.originalSubRows with
              | none => rw [hosr] at hres; cases hres
              | some ds =>
                  rw [hosr] at hres
                  dsimp only at hres
                  split at hres
                  · cases hres
                  · rename_i st1 ps1 hfk
                    simp only [Except.ok.injEq, Prod.mk.injEq] at hres
                    obtain ⟨rfl, rfl⟩ := hres
                    have hkmono := foldKids_mono _
                      (fun d i2 s s' p2 h2 => (ih d i2 (depth + 1) (some (gid r i pid))
                        false s s' p2 h2).1) ds 0 _ _ _ hfk
                    constructor
                    · intro id h
                      rw [present_assignValue]
                      exact hkmono id h
                    · rw [present_assignValue]
                      exact hkmono _ hpres0

theorem foldKids_frame (cid : String)
    (step : RawRow → Nat → TableState → Except AErr (TableState × Option String))
    (hstep : ∀ d i st st' p, step d i st = .ok (st', p) → p = none ∧ FrameRel cid st st') :
    ∀ (ds : List RawRow) (i : Nat) (st st' : TableState) (ps : List String),
      foldKids step ds i st = .ok (st', ps) → ps = [] ∧ FrameRel cid st st'
  | [], i, st, st', ps, hres => by
      rw [foldKids] at hres
      cases hres
      exact ⟨rfl, frameRel_refl cid st⟩
  | d :: rest, i, st, st', ps, hres => by
      rw [foldKids] at hres
      cases hs : step d i st with
      | error e => rw [hs] at hres; cases hres
      | ok pr =>
          obtain ⟨st1, p⟩ := pr
          rw [hs] at hres
          dsimp only at hres
          cases hf : foldKids step rest (i + 1) st1 with
          | error e => rw [hf] at hres; cases hres
          | ok pr2 =>
              obtain ⟨st2, ps2⟩ := pr2
              rw [hf] at hres
              dsimp only at hres
              obtain ⟨hp1, hfr1⟩ := hstep d i st st1 p hs
              obtain ⟨hp2, hfr2⟩ := foldKids_frame cid step hstep rest (i + 1) st1 st2 ps2 hf
              subst hp1
              subst hp2
              cases hres
              exact ⟨rfl, frameRel_trans hfr1 hfr2⟩

theorem accessRow_noacc_frame (col : Column) (hooks : List Hook)
    (gid : RawRow → Nat → Option String → String) :
    ∀ (fuel : Nat) (r : RawRow) (i depth : Nat) (pid : Option String)
      (st st' : TableState) (p : Option String),
      accessRow col hooks gid fuel r i depth pid false st = .ok (st', p) →
      p = none ∧ FrameRel col.id st st' := by
  intro fuel
  induction fuel with
  | zero =>
      intro r i depth pid st st' p hres
      rw [accessRow] at hres
      cases hres
  | succ fuel ih =>
      intro r i depth pid st st' p hres
      rw [accessRow] at hres
      cases hlk : lookupRow st (gid r i pid) with
      | none =>
          rw [hlk] at hres
          simp at hres
      | some row =>
          rw [hlk] at hres
          dsimp only at hres
          cases hsr : row.subRows with
          | none =>
              rw [hsr] at hres
              dsimp only at hres
              simp only [Except.ok.injEq, Prod.mk.injEq] at hres
              obtain ⟨rfl, rfl⟩ := hres
              exact ⟨rfl, assignValue_frame col hooks r i st (gid r i pid)⟩
          | some subIds =>
              rw [hsr] at hres
              dsimp only at hres
              cases hosr : row.originalSubRows with
              | none => rw [hosr] at hres; cases hres
              | some ds =>
                  rw [hosr] at hres
                  dsimp only at hres
                  split at hres
                  · cases hres
                  · rename_i st1 ps1 hfk
                    simp only [Except.ok.injEq, Prod.mk.injEq] at hres
                    obtain ⟨rfl, rfl⟩ := hres
                    obtain ⟨-, hfr⟩ := foldKids_frame col.id _
                      (fun d i2 s s' p2 h2 => ih d i2 (depth + 1) (some (gid r i pid)) s s' p2 h2)
                      ds 0 st st1 ps1 hfk
                    exact ⟨rfl, frameRel_trans hfr
                      (assignValue_frame col hooks r i st1 (gid r i pid))⟩

theorem accessRow_hit_frame (col : Column) (hooks : List Hook)
    (gid : RawRow → Nat → Option String → String) :
    ∀ (fuel : Nat) (r : RawRow) (i depth : Nat) (pid : Option String)
      (st st' : TableState) (p : Option String),
      present st (gid r i pid) = true →
      accessRow col hooks gid fuel r i depth pid true st = .ok (st', p) →
      p = none ∧ FrameRel col.id st st' := by
  intro fuel r i depth pid st st' p hpres hres
  cases fuel with
  | zero =>
      rw [accessRow] at hres
      cases hres
  | succ fuel =>
      rw [accessRow] at hres
      cases hlk : lookupRow st (gid r i pid) with
      | none =>
          rw [hlk] at hres
          simp [present, hlk] at hpres
      | some row =>
          rw [hlk] at hres
          dsimp only at hres
          cases hsr : row.subRows with
          | none =>
              rw [hsr] at hres
              dsimp only at hres
              simp only [Except.ok.injEq, Prod.mk.injEq] at hres
              obtain ⟨rfl, rfl⟩ := hres
              exact ⟨rfl, assignValue_frame col hooks r i st (gid r i pid)⟩
          | some subIds =>
              rw [hsr] at hres
              dsimp only at hres
              cases hosr : row.originalSubRows with
              | none => rw [hosr] at hres; cases hres
              | some ds =>
                  rw [hosr] at hres
                  dsimp only at hres
                  split at hres
                  · cases hres
                  · rename_i st1 ps1 hfk
                    simp only [Except.ok.injEq, Prod.mk.injEq] at hres
                    obtain ⟨rfl, rfl⟩ := hres
                    obtain ⟨-, hfr⟩ := foldKids_frame col.id _
                      (fun d i2 s s' p2 h2 =>
                        accessRow_noacc_frame col hooks gid fuel d i2 (depth + 1)
                          (some (gid r i pid)) s s' p2 h2)
                      ds 0 st st1 ps1 hfk
                    exact ⟨rfl, frameRel_trans hfr
                      (assignValue_frame col hooks r i st1 (gid r i pid))⟩

theorem foldKids_hit_frame (cid : String)
    (step : RawRow → Nat → TableState → Except AErr (TableState × Option String))
    (keyOf : RawRow → Nat → String)
    (hstep : ∀ d i st st' p, present st (keyOf d i) = true → step d i st = .ok (st', p) →
      p = none ∧ FrameRel cid st st') :
    ∀ (ds : List RawRow) (i : Nat) (st st' : TableState) (ps : List String),
      (∀ j d, ds.get? j = some d → present st (keyOf d (i + j)) = true) →
      foldKids step ds i st = .ok (st', ps) → ps = [] ∧ FrameRel cid st st'
  | [], i, st, st', ps, _, hres => by
      rw [foldKids] at hres
      cases hres
      exact ⟨rfl, frameRel_refl cid st⟩
  | d :: rest, i, st, st', ps, hp, hres => by
      rw [foldKids] at hres
      cases hs : step d i st with
      | error e => rw [hs] at hres; cases hres
      | ok pr =>
          obtain ⟨st1, p⟩ := pr
          rw [hs] at hres
          dsimp only at hres
          cases hf : foldKids step rest (i + 1) st1 with
          | error e => rw [hf] at hres; cases hres
          | ok pr2 =>
              obtain ⟨st2, ps2⟩ := pr2
              rw [hf] at hres
              dsimp only at hres
              have hp0 : present st (keyOf d i) = true := by
                have := hp 0 d rfl
                rwa [Nat.add_zero] at this
              obtain ⟨hpn, hfr1⟩ := hstep d i st st1 p hp0 hs
              have hprest : ∀ j d2, rest.get? j = some d2 →
                  present st1 (keyOf d2 (i + 1 + j)) = true := by
                intro j d2 hj
                rw [frameRel_present hfr1]
                have := hp (j + 1) d2 (by simpa using hj)
                rwa [show i + (j + 1) = i + 1 + j by omega] at this
              obtain ⟨hpn2, hfr2⟩ := foldKids_hit_frame cid step keyOf hstep rest (i + 1)
                st1 st2 ps2 hprest hf
              subst hpn
              subst hpn2
              cases hres
              exact ⟨rfl, frameRel_trans hfr1 hfr2⟩

theorem foldKids_post
    (step : RawRow → Nat → TableState → Except AErr (TableState × Option String))
    (keyOf : RawRow → Nat → String)
    (hmono : ∀ d i st st' p, step d i st = .ok (st', p) →
      (∀ id, present st id = true → present st' id = true) ∧
      present st' (keyOf d i) = true) :
    ∀ (ds : List RawRow) (i : Nat) (st st' : TableState) (ps : List String),
      foldKids step ds i st = .ok (st', ps) →
      ∀ j d, ds.get? j = some d → present st' (keyOf d (i + j)) = true
  | [], i, st, st', ps, hres, j, d, hj => by cases j <;> cases hj
  | d0 :: rest, i, st, st', ps, hres, j, d, hj => by
      rw [foldKids] at hres
      cases hs : step d0 i st with
      | error e => rw [hs] at hres; cases hres
      | ok pr =>
          obtain ⟨st1, p⟩ := pr
          rw [hs] at hres
          dsimp only at hres
          cases hf : foldKids step rest (i + 1) st1 with
          | error e => rw [hf] at hres; cases hres
          | ok pr2 =>
              obtain ⟨st2, ps2⟩ := pr2
              rw [hf] at hres
              dsimp only at hres
              cases hres
              cases j with
              | zero =>
                  cases hj
                  rw [Nat.add_zero]
                  exact foldKids_mono step (fun d2 i2 s s' p2 h2 => (hmono d2 i2 s s' p2 h2).1)
                    rest (i + 1) st1 st' ps2 hf _ (hmono d0 i st st1 p hs).2
              | succ j' =>
                  have hrec := foldKids_post step keyOf hmono rest (i + 1) st1 st' ps2 hf j' d
                    (by simpa using hj)
                  rwa [show i + 1 + j' = i + (j' + 1) by omega] at hrec

/-- C4: row-materialization re-entry is idempotent and non-duplicating —
running `accessRowsForColumn` for a second column over the
rows/flatRows/rowsById produced by the first invocation creates no new row
objects, appends nothing to `rows` or `flatRows`, adds no `rowsById`
entries (the arena holds exactly the same entries, same ids, same order),
and changes each existing row at most by the assignment of
`values[column.id]` for the second column (`ValuesExtends`), leaving its
id, original, index, depth, cells, originalSubRows and subRows unchanged.
Conditioned on both passes returning (a non-terminating or `TypeError`
run, possible only under an adversarial row-identity function, returns
an error instead, as in JS). -/
theorem accessRowsForColumn_second_column_frame
    (colA colB : Column) (hooksA hooksB : List Hook)
    (gid : RawRow → Nat → Option String → String) (data : List RawRow)
    (f1 f2 : Nat) (st1 st2 : TableState)
    (h1 : accessRowsForColumn f1 colA hooksA gid data emptyTableState = .ok st1)
    (h2 : accessRowsForColumn f2 colB hooksB gid data st1 = .ok st2) :
    st2.rows = st1.rows ∧ st2.flatRows = st1.flatRows ∧
    List.Forall₂ (fun p q => p.1 = q.1 ∧ ValuesExtends colB.id p.2 q.2)
      st1.rowsById st2.rowsById := by
  rw [accessRowsForColumn] at h1 h2
  split at h1
  · cases h1
  · rename_i s1 ps1 hfk1
    simp only [Except.ok.injEq] at h1
    subst h1
    split at h2
    · cases h2
    · rename_i s2 ps2 hfk2
      simp only [Except.ok.injEq] at h2
      subst h2
      have hpost : ∀ j d, data.get? j = some d →
          present s1 (gid d j none) = true := by
        intro j d hj
        have := foldKids_post _ (fun d i => gid d i none)
          (fun d i s s' p h => accessRow_mono colA hooksA gid f1 d i 0 none true s s' p h)
          data 0 emptyTableState s1 ps1 hfk1 j d hj
        rwa [Nat.zero_add] at this
      have hpres1 : ∀ j d, data.get? j = some d →
          present { s1 with rows := s1.rows ++ ps1 } (gid d (0 + j) none) = true := by
        intro j d hj
        rw [Nat.zero_add]
        exact hpost j d hj
      obtain ⟨hnil, hfr⟩ := foldKids_hit_frame colB.id _ (fun d i => gid d i none)
        (fun d i s s' p hp h =>
          accessRow_hit_frame colB hooksB gid f2 d i 0 none s s' p hp h)
        data 0 { s1 with rows := s1.rows ++ ps1 } s2 ps2 hpres1 hfk2
      subst hnil
      refine ⟨?_, hfr.2.1, hfr.2.2⟩
      rw [List.append_nil]
      exact hfr.1

/-- Every row object in the arena still carries the overridden dummy cell
array. -/
def AllUnprep (st : TableState) : Prop :=
  ∀ id row, lookupRow st id = some row → row.cells = Cells.unprepared

theorem allUnprep_empty : AllUnprep emptyTableState := by
  intro id row hl
  cases hl

theorem allUnprep_modifyRow (st : TableState) (a : String) (f : Row → Row)
    (hf : ∀ row, (f row).cells = row.cells) (h : AllUnprep st) :
    AllUnprep (modifyRow st a f) := by
  intro id row hl
  by_cases hia : id = a
  · subst hia
    rw [lookupRow_modifyRow_self] at hl
    cases hl0 : lookupRow st id with
    | none => rw [hl0] at hl; cases hl
    | some r0 =>
        rw [hl0] at hl
        rw [show (some r0).map f = some (f r0) from rfl] at hl
        cases hl
        rw [hf r0]
        exact h id r0 hl0
  · rw [lookupRow_modifyRow_ne st a id f hia] at hl
    exact h id row hl

theorem allUnprep_assignValue (col : Column) (hooks : List Hook) (r : RawRow) (i : Nat)
    (st : TableState) (id0 : String) (h : AllUnprep st) :
    AllUnprep (assignValue col hooks r i st id0) := by
  unfold assignValue
  cases col.accessor with
  | none => exact allUnprep_modifyRow _ _ _ (fun row => rfl) h
  | some a =>
      dsimp only
      exact allUnprep_modifyRow _ _ _ (fun row => rfl)
        (allUnprep_modifyRow _ _ _ (fun row => rfl) h)

theorem allUnprep_append (st : TableState) (id0 : String) (row0 : Row)
    (h : AllUnprep st) (hc : row0.cells = Cells.unprepared) :
    AllUnprep { st with rowsById := st.rowsById ++ [(id0, row0)] } := by
  intro id row hl
  rw [lookupRow_append] at hl
  cases hlst : lookupRow st id with
  | some r =>
      rw [hlst] at hl
      cases hl
      exact h id row hlst
  | none =>
      rw [hlst] at hl
      by_cases hid : id0 = id
      · rw [if_pos hid] at hl
        cases hl
        exact hc
      · rw [if_neg hid] at hl
        cases hl

theorem foldKids_allUnprep
    (step : RawRow → Nat → TableState → Except AErr (TableState × Option String))
    (hstep : ∀ d i st st' p, step d i st = .ok (st', p) → AllUnprep st → AllUnprep st') :
    ∀ (ds : List RawRow) (i : Nat) (st st' : TableState) (ps : List String),
      foldKids step ds i st = .ok (st', ps) → AllUnprep st → AllUnprep st'
  | [], i, st, st', ps, hres => by
      rw [foldKids] at hres
      cases hres
      exact fun h => h
  | d :: rest, i, st, st', ps, hres => by
      rw [foldKids] at hres
      cases hs : step d i st with
      | error e => rw [hs] at hres; cases hres
      | ok pr =>
          obtain ⟨st1, p⟩ := pr
          rw [hs] at hres
          dsimp only at hres
          cases hf : foldKids step rest (i + 1) st1 with
          | error e => rw [hf] at hres; cases hres
          | ok pr2 =>
              obtain ⟨st2, ps2⟩ := pr2
              rw [hf] at hres
              dsimp only at hres
              cases hres
              intro h
              exact foldKids_allUnprep step hstep rest (i + 1) st1 _ _ hf
                (hstep d i st st1 p hs h)

theorem accessRow_allUnprep (col : Column) (hooks : List Hook)
    (gid : RawRow → Nat → Option String → String) :
    ∀ (fuel : Nat) (r : RawRow) (i depth : Nat) (pid : Option String) (acc : Bool)
      (st st' : TableState) (p : Option String),
      accessRow col hooks gid fuel r i depth pid acc st = .ok (st', p) →
      AllUnprep st → AllUnprep st' := by
  intro fuel
  induction fuel with
  | zero =>
      intro r i depth pid acc st st' p hres
      rw [accessRow] at hres
      cases hres
  | succ fuel ih =>
      intro r i depth pid acc st st' p hres hinv
      rw [accessRow] at hres
      cases hlk : lookupRow st (gid r i pid) with
      | none =>
          rw [hlk] at hres
          dsimp only at hres
          cases hacc : acc with
          | false =>
              rw [hacc] at hres
              simp at hres
          | true =>
              rw [hacc] at hres
              simp only [if_true] at hres
              cases hsubs : r.subs with
              | none =>
                  rw [hsubs] at hres
                  dsimp only at hres
                  simp only [Except.ok.injEq, Prod.mk.injEq] at hres
                  obtain ⟨rfl, rfl⟩ := hres
                  exact allUnprep_assignValue _ _ _ _ _ _
                    (allUnprep_modifyRow _ _ _ (fun row => rfl)
                      (allUnprep_append _ _ _ hinv rfl))
              | some ds =>
                  rw [hsubs] at hres
                  dsimp only at hres
                  split at hres
                  · cases hres
                  · rename_i st3 subIds hfk
                    simp only [Except.ok.injEq, Prod.mk.injEq] at hres
                    obtain ⟨rfl, rfl⟩ := hres
                    refine allUnprep_assignValue _ _ _ _ _ _
                      (allUnprep_modifyRow _ _ _ (fun row => rfl) ?_)
                    refine foldKids_allUnprep _
                      (fun d i2 s s' p2 h2 hh =>
                        ih d i2 (depth + 1) (some (gid r i pid)) true s s' p2 h2 hh)
                      ds 0 _ _ _ hfk ?_
                    exact allUnprep_modifyRow _ _ _ (fun row => rfl)
                      (allUnprep_append _ _ _ hinv rfl)
      | some row =>
          rw [hlk] at hres
          dsimp only at hres
          cases hsr : row.subRows with
          | none =>
              rw [hsr] at hres
              dsimp only at hres
              simp only [Except.ok.injEq, Prod.mk.injEq] at hres
              obtain ⟨rfl, rfl⟩ := hres
              exact allUnprep_assignValue _ _ _ _ _ _ hinv
          | some subIds =>
              rw [hsr] at hres
              dsimp only at hres
              cases hosr : row.originalSubRows with
              | none => rw [hosr] at hres; cases hres
              | some ds =>
                  rw [hosr] at hres
                  dsimp only at hres
                  split at hres
                  · cases hres
                  · rename_i st1 ps1 hfk
                    simp only [Except.ok.injEq, Prod.mk.injEq] at hres
                    obtain ⟨rfl, rfl⟩ := hres
                    refine allUnprep_assignValue _ _ _ _ _ _ ?_
                    exact foldKids_allUnprep _
                      (fun d i2 s s' p2 h2 hh =>
                        ih d i2 (depth + 1) (some (gid r i pid)) false s s' p2 h2 hh)
                      ds 0 _ _ _ hfk hinv

/-- C5: reading an unprepared row's cell collection fails loudly — every
row freshly materialized by `accessRowsForColumn` (before any prepare step
has populated its cells) still carries the overridden dummy cell array, so
`row.cells.map`, `row.cells.filter`, `row.cells.forEach` and
`row.cells[0].getCellProps` all throw `unpreparedAccessWarning` rather
than returning partial, stale or empty cell data. -/
theorem accessRowsForColumn_unprepared_cells (col : Column) (hooks : List Hook)
    (gid : RawRow → Nat → Option String → String) (data : List RawRow) (fuel : Nat)
    (st : TableState)
    (hres : accessRowsForColumn fuel col hooks gid data emptyTableState = .ok st) :
    ∀ id row, lookupRow st id = some row →
      row.cells = Cells.unprepared ∧
      (∀ f : Cell → JSVal, row.cells.mapCells f = unpreparedAccessWarning) ∧
      (∀ f : Cell → Bool, row.cells.filterCells f = unpreparedAccessWarning) ∧
      (∀ f : Cell → Unit, row.cells.forEachCells f = unpreparedAccessWarning) ∧
      row.cells.getCellPropsAtZero = unpreparedAccessWarning := by
  intro id row hl
  rw [accessRowsForColumn] at hres
  split at hres
  · cases hres
  · rename_i s1 ps1 hfk
    simp only [Except.ok.injEq] at hres
    subst hres
    have hinv : AllUnprep s1 :=
      foldKids_allUnprep _
        (fun d i s s' p h2 hh => accessRow_allUnprep col hooks gid fuel d i 0 none true
          s s' p h2 hh)
        data 0 emptyTableState s1 ps1 hfk allUnprep_empty
    have hc : row.cells = Cells.unprepared := hinv id row hl
    refine ⟨hc, ?_, ?_, ?_, ?_⟩ <;> rw [hc] <;> intros <;> rfl

/-- The concrete data of the row-materializer witnesses: two top-level
items, the first with one sub-row. -/
def c4data : List RawRow :=
  [.mk (.obj [("fn", .str "Tanner"), ("ln", .str "L")])
      (some [.mk (.obj [("fn", .str "Kid")]) none]),
   .mk (.obj [("fn", .str "Shawn")]) none]

/-- The default row-identity function of the spec: index path through the
ancestry. -/
def c4gid : RawRow → Nat → Option String → String :=
  fun _ i p => match p with | some pid => pid ++ "." ++ toString i | none => toString i

def c4colA : Column := { id := "fn", accessor := some fun r _ _ => getProp r.val "fn" }

def c4colB : Column := { id := "ln", accessor := some fun r _ _ => getProp r.val "ln" }

def c4st1 : TableState :=
  match accessRowsForColumn 10 c4colA [] c4gid c4data emptyTableState with
  | .ok s => s
  | .error _ => emptyTableState

def c4st2 : TableState :=
  match accessRowsForColumn 10 c4colB [] c4gid c4data c4st1 with
  | .ok s => s
  | .error _ => emptyTableState

theorem accessRowsForColumn_second_column_frame_witness :
    c4st2.rows = c4st1.rows ∧ c4st2.flatRows = c4st1.flatRows ∧
    List.Forall₂ (fun p q => p.1 = q.1 ∧ ValuesExtends c4colB.id p.2 q.2)
      c4st1.rowsById c4st2.rowsById :=
  accessRowsForColumn_second_column_frame c4colA c4colB [] [] c4gid c4data 10 10
    c4st1 c4st2 rfl rfl

/-- The first row materialized from `c4data`, read back from the arena. -/
def c5row0 : Row :=
  (lookupRow c4st1 "0").getD
    { id := "", original := .mk .undef none, index := 0, depth := 0,
      cells := Cells.unprepared, values := [], originalSubRows := none, subRows := none }

theorem accessRowsForColumn_unprepared_cells_witness :
    c5row0.cells = Cells.unprepared ∧
    (∀ f : Cell → JSVal, c5row0.cells.mapCells f = unpreparedAccessWarning) ∧
    (∀ f : Cell → Bool, c5row0.cells.filterCells f = unpreparedAccessWarning) ∧
    (∀ f : Cell → Unit, c5row0.cells.forEachCells f = unpreparedAccessWarning) ∧
    c5row0.cells.getCellPropsAtZero = unpreparedAccessWarning :=
  accessRowsForColumn_unprepared_cells c4colA [] c4gid c4data 10 c4st1 rfl "0" c5row0 rfl

theorem resolvePath_eq_followKeys (keys : List String) (o : JSVal) :
    resolvePath o keys = followKeys o keys := by
  induction keys generalizing o with
  | nil => rfl
  | cons k rest ih =>
      simp only [resolvePath, List.foldlM, followKeys]
      cases h : jsGet o k with
      | ok v => simpa [Bind.bind, Except.bind] using ih v
      | error e => simp [Bind.bind, Except.bind]

/-- C2: for every object, path and default, `getBy` returns the nested
value reached by following the parsed key sequence through the object, and
returns the supplied default whenever that resolution throws a JS error or
yields `undefined`; `getBy` itself never throws (it is a total function
into `JSVal`, the `try`/`catch` recovering every resolution failure).  A
falsy path (the empty string, the number 0) is the degenerate path with no
keys, where the value reached is the object itself. -/
theorem getBy_resolution_contract (o : JSVal) (p : PathElem) (dflt : JSVal) :
    getBy o p dflt =
      if pathFalsy p then o
      else
        match followKeys o (makePathArray p) with
        | .ok v => if isUndefined v then dflt else v
        | .error _ => dflt := by
  unfold getBy
  rw [resolvePath_eq_followKeys]
  cases hp : pathFalsy p
  · cases hk : followKeys o (makePathArray p) <;> simp [hp, hk, isUndefined]
  · simp [hp]

/-- C9: with no custom `autoRemove` predicate, `shouldAutoRemoveFilter`
returns true exactly when the filter value is `undefined`; with a custom
predicate the result is exactly `autoRemove(value, column)`. -/
theorem shouldAutoRemoveFilter_contract {Col : Type} (value : JSVal) (column : Col) :
    (shouldAutoRemoveFilter none value column = true ↔ value = JSVal.undef) ∧
    ∀ f : JSVal → Col → Bool, shouldAutoRemoveFilter (some f) value column = f value column := by
  refine ⟨?_, fun f => rfl⟩
  cases value <;> simp [shouldAutoRemoveFilter, isUndefined]

end ReactTable

